import Mathlib

/-!
Shallow embedding of the subtitle engine of pyMediaConvert
(`pyMediaTools/core/{subtitle_writer,cjk_tokenizer,subtitle_builder,translation_manager,SrtsToFcpxml}.py`)
together with theorems settling the specification claims.

Conventions of the embedding:
* Python `float` seconds are modelled as exact rationals (`ℚ`).
* Python dictionaries `{"text": ..., "start": ..., "end": ...}` become the
  structure `Seg`; the field `end` is renamed `stop` because `end` is a Lean
  keyword.
* Fallible code returns `Except`.
-/

namespace PyMedia

/-- A token / subtitle segment: Python dict `{"text", "start", "end"}`
(`end` is renamed `stop`). -/
structure Seg where
  text : String
  start : ℚ
  stop : ℚ
deriving DecidableEq, Repr

instance : Inhabited Seg := ⟨⟨"", 0, 0⟩⟩

/-! ## SubtitleWriter (`subtitle_writer.py`) -/

/-- Python `int()` on a rational: truncation toward zero. -/
def pyint (x : ℚ) : ℤ := if 0 ≤ x then ⌊x⌋ else -⌊-x⌋

/-- Python `%` on rationals (for the divisors 1 and 60 used by the writer):
`a - b * floor (a / b)`. -/
def pymod (a b : ℚ) : ℚ := a - b * ⌊a / b⌋

/-- Decimal digit character. -/
def digitChar (n : ℕ) : Char := Char.ofNat (48 + n)

/-- Decimal digits of a natural number (first argument is fuel). -/
def natDigits : ℕ → ℕ → List Char
  | 0, _ => []
  | fuel+1, n => if n < 10 then [digitChar n] else natDigits fuel (n / 10) ++ [digitChar (n % 10)]

/-- Python `str` of an integer. -/
def intToString (i : ℤ) : String :=
  if i < 0 then "-" ++ String.mk (natDigits ((-i).toNat + 1) (-i).toNat)
  else String.mk (natDigits (i.toNat + 1) i.toNat)

/-- Zero padding, as Python `f"{n:02d}"` / `f"{n:03d}"` for the width used. -/
def zfill (w : ℕ) (s : String) : String :=
  if s.length < w then String.mk (List.replicate (w - s.length) '0') ++ s else s

/-- `SubtitleWriter._format_time`: source computes
`mils = int((seconds % 1) * 1000)`, `secs = int(seconds % 60)`,
`mins = int((seconds / 60) % 60)`, `hours = int(seconds / 3600)` and formats
`HH:MM:SS,mmm`. -/
def format_time (seconds : ℚ) : String :=
  let mils := pyint (pymod seconds 1 * 1000)
  let secs := pyint (pymod seconds 60)
  let mins := pyint (pymod (seconds / 60) 60)
  let hours := pyint (seconds / 3600)
  zfill 2 (intToString hours) ++ ":" ++ zfill 2 (intToString mins) ++ ":" ++
    zfill 2 (intToString secs) ++ "," ++ zfill 3 (intToString mils)

/-- Python `str.strip()`: drop leading and trailing whitespace.
(Defined over the character list so that it evaluates by kernel reduction;
`Char.isWhitespace` models Python's whitespace test.) -/
def pystrip (s : String) : String :=
  String.mk (((s.toList.dropWhile Char.isWhitespace).reverse.dropWhile Char.isWhitespace).reverse)

/-- Input record for `write_srt`: the Python dicts may lack `start`/`end`
(`segment.get("start")` returning `None` is modelled by `Option`). -/
structure RawSeg where
  text : String
  start : Option ℚ
  stop : Option ℚ
deriving DecidableEq, Repr

/-- One SRT block as emitted by `write_srt`: sequence number, the two
formatted timestamps and the (stripped) text. -/
structure SrtEntry where
  num : ℕ
  startStr : String
  stopStr : String
  text : String
deriving DecidableEq, Repr

/-- The loop body of `SubtitleWriter.write_srt`: `idx` is the 0-based
`enumerate` index.  The missing-field check precedes the empty-text skip,
and the emitted sequence number is `idx + 1`. -/
def write_srt_go : ℕ → List RawSeg → Except String (List SrtEntry)
  | _, [] => Except.ok []
  | idx, seg :: rest =>
    let text := pystrip seg.text
    match seg.start, seg.stop with
    | some s, some e =>
      if text = "" then write_srt_go (idx + 1) rest
      else
        match write_srt_go (idx + 1) rest with
        | Except.ok tail => Except.ok (⟨idx + 1, format_time s, format_time e, text⟩ :: tail)
        | Except.error msg => Except.error msg
    | _, _ => Except.error ("segment " ++ toString idx ++ " missing start or end")

/-- `SubtitleWriter.write_srt`: an empty list produces an empty file
(no entries, no error); otherwise the enumerate loop runs. -/
def write_srt (segments : List RawSeg) : Except String (List SrtEntry) :=
  if segments = [] then Except.ok [] else write_srt_go 0 segments

/-- The SRT block emitted for the 0-based position `p.1` and segment `p.2`. -/
def srtEntryAt (p : ℕ × RawSeg) : SrtEntry :=
  ⟨p.1 + 1, format_time (p.2.start.getD 0), format_time (p.2.stop.getD 0), pystrip p.2.text⟩

/-! ## CJKTokenizer (`cjk_tokenizer.py`) -/

/-- `string.punctuation` (ASCII).  Some characters are written via their code
points to keep the source free of quoting issues. -/
def ascii_punctuation : List Char :=
  ['!', Char.ofNat 34, '#', '$', '%', '&', Char.ofNat 39, '(', ')', '*', '+', ',', '-', '.', '/',
   ':', ';', '<', '=', '>', '?', '@', '[', '\\', ']', '^', '_', Char.ofNat 96,
   Char.ofNat 123, '|', Char.ofNat 125, '~']

/-- The tokenizer's punctuation set: `string.punctuation` plus the CJK
punctuation listed in the source (including the curly quote characters). -/
def punctuation_chars : List Char :=
  ascii_punctuation ++
    ['。', '，', '！', '？', '、', '；', '：', '“', '”', '‘', '’', '（', '）', '…', '—', '·',
     '《', '》', '〈', '〉']

/-- `CJKTokenizer.is_cjk`: code point in U+4E00..U+9FFF. -/
def is_cjk (char : Char) : Bool :=
  decide (0x4e00 ≤ char.toNat) && decide (char.toNat ≤ 0x9fff)

/-- A timed character: `(char, start, end)` drawn from the three parallel
arrays. -/
abbrev TChar := Char × ℚ × ℚ

instance : Inhabited TChar := ⟨('a', 0, 0)⟩

/-- The three parallel input arrays zipped together (the claims assume the
equal-length TimedCharacter invariant; Python indexes the arrays directly). -/
def zip3 (chars : List Char) (starts stops : List ℚ) : List TChar :=
  chars.zip (starts.zip stops)

/-- The loop of `CJKTokenizer.tokenize_by_cjk`: state is the accumulated
`current_word` and its `word_start`.  A punctuation or CJK character flushes
the accumulated run (its `end` is the boundary character's START time,
`char_starts[i]`) and is emitted as its own single-character token spanning
`char_starts[i]..char_ends[i]`; whitespace flushes the run the same way; the
final character flushes the run with `end = char_ends[i]`. -/
def tokenize_go : List TChar → String → Option ℚ → List Seg
  | [], _, _ => []
  | (c, s, e) :: rest, current_word, word_start =>
    if punctuation_chars.contains c then
      (if current_word ≠ "" then [⟨current_word, word_start.getD 0, s⟩] else []) ++
        ⟨String.singleton c, s, e⟩ :: tokenize_go rest "" none
    else
      let ws := some (word_start.getD s)
      if is_cjk c then
        (if current_word ≠ "" then [⟨current_word, ws.getD 0, s⟩] else []) ++
          ⟨String.singleton c, s, e⟩ :: tokenize_go rest "" none
      else if c.isWhitespace then
        (if current_word ≠ "" then [⟨current_word, ws.getD 0, s⟩] else []) ++
          tokenize_go rest "" none
      else if rest = [] then [⟨current_word.push c, ws.getD 0, e⟩]
      else tokenize_go rest (current_word.push c) ws

/-- `CJKTokenizer.tokenize_by_cjk`. -/
def tokenize_by_cjk (chars : List Char) (char_starts char_ends : List ℚ) : List Seg :=
  if chars = [] then [] else tokenize_go (zip3 chars char_starts char_ends) "" none

/-- `any(ender in text for ender in sentence_enders)` for single-character
enders. -/
def contains_ender (sentence_enders : List Char) (t : String) : Bool :=
  t.toList.any (fun c => sentence_enders.contains c)

/-- The loop of `CJKTokenizer.group_words`: note the pause test
`word_obj["end"] - word_obj["start"] >= pause_threshold` uses the CURRENT
token's own duration. -/
def group_words_go (words_per_line : ℕ) (sentence_enders : List Char) (pause_threshold : ℚ) :
    List Seg → List Seg → List (List Seg)
  | _, [] => []
  | current_group, w :: rest =>
    let g := current_group ++ [w]
    if words_per_line ≤ g.length ∨ contains_ender sentence_enders w.text ∨
        (rest ≠ [] ∧ pause_threshold ≤ w.stop - w.start) ∨ rest = [] then
      (if g = [] then [] else [g]) ++
        group_words_go words_per_line sentence_enders pause_threshold [] rest
    else group_words_go words_per_line sentence_enders pause_threshold g rest

/-- `CJKTokenizer.group_words`. -/
def group_words (word_objects : List Seg) (words_per_line : ℕ) (sentence_enders : List Char)
    (pause_threshold : ℚ := 1/5) : List (List Seg) :=
  if word_objects = [] then []
  else group_words_go words_per_line sentence_enders pause_threshold [] word_objects

/-- Modelled from the spec's words (§4.1 `group_words`), for comparison only:
identical grouping except that the pause test compares the NEXT token's start
against the current token's end (`next.start - current.end >= threshold`), as
the claim states. -/
def group_words_gap_go (words_per_line : ℕ) (sentence_enders : List Char) (pause_threshold : ℚ) :
    List Seg → List Seg → List (List Seg)
  | _, [] => []
  | current_group, w :: rest =>
    let g := current_group ++ [w]
    let is_pause : Bool :=
      match rest with
      | [] => false
      | w2 :: _ => decide (pause_threshold ≤ w2.start - w.stop)
    if words_per_line ≤ g.length ∨ contains_ender sentence_enders w.text ∨
        is_pause ∨ rest = [] then
      (if g = [] then [] else [g]) ++
        group_words_gap_go words_per_line sentence_enders pause_threshold [] rest
    else group_words_gap_go words_per_line sentence_enders pause_threshold g rest

/-- Modelled from the spec's words: `group_words` with an inter-token gap
pause test. -/
def group_words_gap (word_objects : List Seg) (words_per_line : ℕ) (sentence_enders : List Char)
    (pause_threshold : ℚ := 1/5) : List (List Seg) :=
  if word_objects = [] then []
  else group_words_gap_go words_per_line sentence_enders pause_threshold [] word_objects

/-- A token that is a single punctuation or CJK character of the input,
spanning exactly that character's `start..end`. -/
def TokSingle (items : List TChar) (t : Seg) : Prop :=
  ∃ x ∈ items, (punctuation_chars.contains x.1 ∨ is_cjk x.1) ∧
    t = ⟨String.singleton x.1, x.2.1, x.2.2⟩

/-- A token built from a contiguous run of input characters: its text is the
run's characters, its start is the FIRST run character's start time, and its
end is either the start time of the character right AFTER the run (when the
run was flushed at a boundary character) or, when the run extends to the end
of the input, the LAST run character's end time. -/
def TokFromRun (items : List TChar) (t : Seg) : Prop :=
  ∃ pre run post, items = pre ++ run ++ post ∧ run ≠ [] ∧
    t.text = String.mk (run.map (fun x => x.1)) ∧
    t.start = (run.headD default).2.1 ∧
    ((post ≠ [] ∧ t.stop = (post.headD default).2.1) ∨
      (post = [] ∧ t.stop = (run.getLastD default).2.2))

/-! ## SubtitleSegmentBuilder (`subtitle_builder.py`) -/

/-- Python `str.split()` (no argument): split on whitespace runs, dropping
empty pieces; `acc` holds the current piece reversed. -/
def splitWsChars : List Char → List Char → List (List Char)
  | [], acc => if acc = [] then [] else [acc.reverse]
  | c :: rest, acc =>
    if c.isWhitespace then
      (if acc = [] then [] else [acc.reverse]) ++ splitWsChars rest []
    else splitWsChars rest (c :: acc)

/-- Python `s.split()`. -/
def pysplit_ws (s : String) : List String :=
  (splitWsChars s.toList []).map String.mk

/-- `clean_text = text.strip(); clean_text = " ".join(clean_text.split())`. -/
def collapse_spaces (s : String) : String :=
  String.intercalate " " (pysplit_ws (pystrip s))

/-- The cleaning step of `CJKTokenizer.smart_join`: strip punctuation from
the token's text, then collapse internal whitespace. -/
def clean_token (t : String) : String :=
  String.intercalate " "
    (pysplit_ws (String.mk (t.toList.filter (fun c => !(punctuation_chars.contains c)))))

/-- `prev_text[-1]` / `current_text[0]` (the source guards against empty
strings with `if prev_text else ""`, and `is_cjk("")` is false; the NUL
fallback character is likewise not CJK). -/
def lastChar (s : String) : Char := s.toList.getLastD (Char.ofNat 0)

def firstChar (s : String) : Char := s.toList.headD (Char.ofNat 0)

/-- The joining loop of `smart_join`: a single space is inserted exactly
when neither the previous cleaned part's last character nor the current
part's first character is CJK. -/
def smart_join_go : String → List String → String
  | _, [] => ""
  | prev, cur :: rest =>
    (if ¬ is_cjk (lastChar prev) ∧ ¬ is_cjk (firstChar cur) then " " ++ cur else cur) ++
      smart_join_go cur rest

/-- `CJKTokenizer.smart_join`. -/
def smart_join (word_objects : List Seg) : String :=
  if word_objects = [] then ""
  else
    match (word_objects.map (fun w => clean_token w.text)).filter (fun t => t != "") with
    | [] => ""
    | p :: ps => p ++ smart_join_go p ps

/-- The builder's configuration (`srt_delimiters`, `srt_sentence_enders`,
`srt_max_chars`, `srt_pause_threshold`). -/
structure BuilderConfig where
  delimiters : List Char
  sentence_enders : List Char
  max_chars_per_line : ℕ
  pause_threshold : ℚ

/-- Default `srt_delimiters` (the `"` is written via its code point). -/
def default_delimiters : List Char :=
  [' ', '\n', '।', '？', '?', '!', '！', ',', '，', Char.ofNat 34, '“', '”']

/-- Default `srt_sentence_enders`. -/
def default_sentence_enders : List Char :=
  ['.', '\n', '。', '।', '？', '?', '!', '！', '…']

/-- The default configuration (35 chars, 0.2 s). -/
def default_config : BuilderConfig :=
  ⟨default_delimiters, default_sentence_enders, 35, 1/5⟩

/-- The loop of `SubtitleSegmentBuilder._build_segments_standard`: state is
`(current_line_text, current_line_start)`; the pause test uses the CURRENT
character's own duration `char_ends[i] - char_starts[i]` (the commented-out
gap-based variant in the source is not active). -/
def build_segments_standard_go (cfg : BuilderConfig) (ignore_line_length : Bool) :
    List TChar → String → Option ℚ → List Seg
  | [], _, _ => []
  | (c, s, e) :: rest, current_line_text, current_line_start =>
    let start := current_line_start.getD s
    let text := current_line_text.push c
    if cfg.sentence_enders.contains c ∨
        (rest ≠ [] ∧ cfg.pause_threshold ≤ e - s) ∨
        (ignore_line_length = false ∧ cfg.max_chars_per_line < text.length ∧
          cfg.delimiters.contains c) ∨
        rest = [] then
      (if collapse_spaces text ≠ "" then [⟨collapse_spaces text, start, e⟩] else []) ++
        build_segments_standard_go cfg ignore_line_length rest "" none
    else build_segments_standard_go cfg ignore_line_length rest text (some start)

/-- `is_punctuation = all(c in punctuation_chars for c in word["text"] if c.strip())`:
every non-whitespace character of the text belongs to the configured set. -/
def is_punct_word (pset : List Char) (t : String) : Bool :=
  t.toList.all (fun c => c.isWhitespace || pset.contains c)

/-- The loop of `_merge_punctuation_with_previous`; `acc` is the reversed
`result` list.  A pure-punctuation word is appended to the previous word
(extending its `end`); with no previous word it is kept as is. -/
def merge_punct_go (pset : List Char) : List Seg → List Seg → List Seg
  | acc, [] => acc.reverse
  | [], w :: rest => merge_punct_go pset [w] rest
  | prev :: acc', w :: rest =>
    if is_punct_word pset w.text then
      merge_punct_go pset
        ({ prev with text := prev.text ++ w.text, stop := w.stop } :: acc') rest
    else merge_punct_go pset (w :: prev :: acc') rest

/-- `SubtitleSegmentBuilder._merge_punctuation_with_previous` (the source
builds its punctuation set as the union of the configured delimiters and
sentence enders). -/
def merge_punctuation_with_previous (cfg : BuilderConfig) (words : List Seg) : List Seg :=
  if words = [] then words
  else merge_punct_go (cfg.delimiters ++ cfg.sentence_enders) [] words

/-- The inter-token pause test of `_build_segments_word_level`:
`processed_words[i+1]["start"] - word_obj["end"] >= pause_threshold`
(false for the last token). -/
def gap_pause (θ : ℚ) (w : Seg) : List Seg → Bool
  | [] => false
  | w2 :: _ => decide (θ ≤ w2.start - w.stop)

/-- The grouping loop of `_build_segments_word_level`: identical in shape to
`group_words` but the pause test here IS the inter-token gap
`processed_words[i+1].start - word.end`; each closed group is rendered with
`smart_join` and spans first token start to last token end. -/
def build_segments_word_level_go (cfg : BuilderConfig) (words_per_line : ℕ) :
    List Seg → List Seg → List Seg
  | _, [] => []
  | current_group, w :: rest =>
    let g := current_group ++ [w]
    if words_per_line ≤ g.length ∨ contains_ender cfg.sentence_enders w.text ∨
        gap_pause cfg.pause_threshold w rest ∨ rest = [] then
      (if smart_join g ≠ "" then
        [⟨smart_join g, (g.headD default).start, (g.getLastD default).stop⟩]
      else []) ++ build_segments_word_level_go cfg words_per_line [] rest
    else build_segments_word_level_go cfg words_per_line g rest

/-- `SubtitleSegmentBuilder.build_segments`. -/
def build_segments (cfg : BuilderConfig) (chars : List Char) (char_starts char_ends : List ℚ)
    (word_level : Bool) (words_per_line : ℕ) (ignore_line_length : Bool) : List Seg :=
  if chars = [] then []
  else if word_level then
    build_segments_word_level_go cfg words_per_line []
      (merge_punctuation_with_previous cfg (tokenize_by_cjk chars char_starts char_ends))
  else build_segments_standard_go cfg ignore_line_length (zip3 chars char_starts char_ends) "" none

/-! ## FCPXML exporter (`SrtsToFcpxml.py`) -/

/-- An SRT cue as seen by the exporter: `start`/`end` are the pysrt
millisecond ordinals (`sub.start.ordinal`, `sub.end.ordinal`);
`sub.duration.ordinal = end - start`. -/
structure Cue where
  start : ℤ
  stop : ℤ
deriving DecidableEq, Repr

/-- The displayed start in seamless mode:
`if seamless_fcpxml and sub.start.ordinal > 34: start = ordinal - 34`. -/
def seamless_adjusted_start (c : Cue) : ℤ :=
  if 34 < c.start then c.start - 34 else c.start

/-- The per-cue `(start, duration)` pairs computed by the loop of
`SrtsToFcpxml` in seamless mode (in milliseconds, before the frame
conversion `get_Fraction_time`): each non-last cue's duration is
`next_sub.start.ordinal - start` with `start` the current ADJUSTED start;
the last cue keeps its own `duration.ordinal`. -/
def seamless_titles : List Cue → List (ℤ × ℤ)
  | [] => []
  | [c] => [(seamless_adjusted_start c, c.stop - c.start)]
  | c :: c2 :: rest =>
    (seamless_adjusted_start c, c2.start - seamless_adjusted_start c) ::
      seamless_titles (c2 :: rest)

/-! ## TranslationManager retry helper (`translation_manager.py`) -/

/-- One attempt outcome for `_request_with_retry`: an HTTP response with a
status code and (for 200) the parsed `choices[0].message.content` — `none`
when no parseable choices — or a `requests` network/timeout exception. -/
inductive Outcome where
  | resp (status : ℕ) (content : Option String)
  | netExc
deriving DecidableEq, Repr

/-- How a call to `_request_with_retry` can fail (the exceptions it raises,
plus `traceEnd` for running off the end of the modelled attempt list). -/
inductive ReqError where
  | rateLimit
  | statusErr (code : ℕ)
  | netErr
  | traceEnd
deriving DecidableEq, Repr

/-- The `while retry_count <= max_retries` loop of
`TranslationManager._request_with_retry`, driven by the list of attempt
outcomes; returns the result together with the list of `time.sleep`
durations performed.  A 200 returns the content; a 429 increments the
retry count, raises when it exceeds `max_retries`, else sleeps
`5 * 2^(retry_count - 1)` (exponential backoff) and retries; any OTHER
status raises immediately (the `raise Exception(error_msg)` is not caught
by the `except (requests.Timeout, requests.RequestException)` clause);
a network exception increments the count, raises past the cap, else
sleeps a fixed 2 seconds and retries. -/
def request_with_retry_go (max_retries : ℕ) :
    List Outcome → ℕ → Except ReqError (Option String) × List ℕ
  | [], _ => (Except.error ReqError.traceEnd, [])
  | Outcome.resp status content :: rest, retry_count =>
    if status = 200 then (Except.ok content, [])
    else if status = 429 then
      if max_retries < retry_count + 1 then (Except.error ReqError.rateLimit, [])
      else
        let r := request_with_retry_go max_retries rest (retry_count + 1)
        (r.1, 5 * 2 ^ retry_count :: r.2)
    else (Except.error (ReqError.statusErr status), [])
  | Outcome.netExc :: rest, retry_count =>
    if max_retries < retry_count + 1 then (Except.error ReqError.netErr, [])
    else
      let r := request_with_retry_go max_retries rest (retry_count + 1)
      (r.1, 2 :: r.2)

/-- `TranslationManager._request_with_retry` (retry counter starts at 0). -/
def request_with_retry (max_retries : ℕ) (attempts : List Outcome) :
    Except ReqError (Option String) × List ℕ :=
  request_with_retry_go max_retries attempts 0

/-! ## TranslationManager batching (`translation_manager.py`) -/

/-- The batch framing separator. -/
def separator : String := "###SEG_SEP###"

/-- Python `str.split(sep)` over character lists (first argument is fuel;
`sep` is nonempty for every use in the source). -/
def splitOnChars (sep : List Char) : ℕ → List Char → List Char → List (List Char)
  | 0, _, acc => [acc.reverse]
  | fuel + 1, xs, acc =>
    match xs with
    | [] => [acc.reverse]
    | x :: rest =>
      if sep.isPrefixOf (x :: rest) then
        acc.reverse :: splitOnChars sep fuel ((x :: rest).drop sep.length) []
      else splitOnChars sep fuel rest (x :: acc)

/-- Python `s.split(sep)`. -/
def pysplit (s sep : String) : List String :=
  (splitOnChars sep.toList (s.toList.length + 1) s.toList []).map String.mk

/-- `TranslationManager._translate_batch`, given the raw text returned by
`_request_with_retry` (`none` both for a `None` result and for a raised,
caught exception - either way the source returns `[None] * len(texts)`):
split on the separator, strip each piece, drop one trailing empty piece
when there are too many, then truncate extras or pad with `None`. -/
def translate_batch (texts : List String) (result_raw : Option String) : List (Option String) :=
  match result_raw with
  | none => List.replicate texts.length none
  | some raw =>
    if raw = "" then List.replicate texts.length none
    else
      let translated_lines := (pysplit raw separator).map pystrip
      let translated_lines :=
        if texts.length < translated_lines.length ∧ translated_lines.getLast? = some "" then
          translated_lines.dropLast
        else translated_lines
      if texts.length < translated_lines.length then
        (translated_lines.take texts.length).map some
      else
        translated_lines.map some ++ List.replicate (texts.length - translated_lines.length) none

/-- Consecutive windows of `n` elements (`range(0, len(segments), n)`). -/
def chunksOf {α : Type} (n : ℕ) (l : List α) : List (List α) :=
  if h : l.length = 0 ∨ n = 0 then [] else l.take n :: chunksOf n (l.drop n)
termination_by l.length
decreasing_by
  push_neg at h
  rw [List.length_drop]
  exact Nat.sub_lt (Nat.pos_of_ne_zero h.1) (Nat.pos_of_ne_zero h.2)

/-- `self.batch_size` (default 20). -/
def batch_size : ℕ := 20

/-- The per-segment update step of `translate_segments`: copy the segment
and replace its text only when the translated piece is truthy
(`if trans_text:` is false for `None` and for `""`). -/
def apply_translation (seg : Seg) (t : Option String) : Seg :=
  match t with
  | some s => if s ≠ "" then { seg with text := s } else seg
  | none => seg

/-- `TranslationManager.translate_segments` at the value level:
`available` models `is_available()` (an API key is configured) and
`respond` models the backend - it maps a batch's texts to the raw content
returned by `_request_with_retry` (`none` for no content / an exception,
in which case `_translate_batch` itself returns all-`None` and the
original texts are kept). -/
def translate_segments (available : Bool) (segments : List Seg)
    (respond : List String → Option String) : List Seg :=
  if ¬available then segments
  else if segments = [] then segments
  else
    (chunksOf batch_size segments).flatMap (fun batch =>
      (batch.zip (translate_batch (batch.map (fun s => s.text))
        (respond (batch.map (fun s => s.text))))).map (fun p => apply_translation p.1 p.2))

/-! ## TranslationManager heap model (`translate_segments`, claim C9)

Python segment dicts are mutable objects; to state that `translate_segments`
never mutates its input segments, the dicts live in an explicit store
(address = index).  The operations used by the source are `segment.copy()`
(allocate a fresh dict), `updated_segment["text"] = ...` (write the fresh
copy) and `.get("text", "")` (read). -/

/-- A value stored in a segment dict. -/
inductive PyVal where
  | s (v : String)
  | q (v : ℚ)
deriving DecidableEq, Repr

/-- A Python dict with string keys, insertion ordered. -/
abbrev PyDict := List (String × PyVal)

/-- The heap of dict objects; an address is an index. -/
abbrev Store := List PyDict

/-- `d[k]` lookup. -/
def dict_get (d : PyDict) (k : String) : Option PyVal :=
  (d.find? (fun p => p.1 == k)).map (fun p => p.2)

/-- `d[k] = v`: replace in place or append. -/
def dict_set (d : PyDict) (k : String) (v : PyVal) : PyDict :=
  if d.any (fun p => p.1 == k) then
    d.map (fun p => if p.1 == k then (k, v) else p)
  else d ++ [(k, v)]

/-- Dereference an address (invalid addresses give the empty dict). -/
def store_get (σ : Store) (a : ℕ) : PyDict := σ.getD a []

/-- `segment.get("text", "")` through the store (the source only ever joins
string texts). -/
def seg_text_at (σ : Store) (a : ℕ) : String :=
  match dict_get (store_get σ a) "text" with
  | some (PyVal.s v) => v
  | _ => ""

/-- The per-batch loop body of `translate_segments`:
`updated_segment = original_seg.copy()` allocates a fresh dict at the end of
the store, and `if trans_text: updated_segment["text"] = trans_text` writes
only that fresh copy. -/
def copy_batch (σ : Store) : List (ℕ × Option String) → Store × List ℕ
  | [] => (σ, [])
  | (a, none) :: rest =>
    let r := copy_batch (σ ++ [store_get σ a]) rest
    (r.1, σ.length :: r.2)
  | (a, some s) :: rest =>
    let σ' :=
      if s ≠ "" then
        (σ ++ [store_get σ a]).set σ.length (dict_set (store_get σ a) "text" (PyVal.s s))
      else σ ++ [store_get σ a]
    let r := copy_batch σ' rest
    (r.1, σ.length :: r.2)

/-- The batch loop (`for i in range(0, len(segments), self.batch_size)`)
over the already-chunked address list. -/
def ts_store_go (respond : List String → Option String) : Store → List (List ℕ) → Store × List ℕ
  | σ, [] => (σ, [])
  | σ, batch :: bs =>
    let r := copy_batch σ (batch.zip (translate_batch (batch.map (seg_text_at σ))
      (respond (batch.map (seg_text_at σ)))))
    let r' := ts_store_go respond r.1 bs
    (r'.1, r.2 ++ r'.2)

/-- `TranslationManager.translate_segments` at the heap level: returns the
final store and the addresses of the returned segment objects. -/
def translate_segments_store (available : Bool) (σ : Store) (seg_addrs : List ℕ)
    (respond : List String → Option String) : Store × List ℕ :=
  if ¬available then (σ, seg_addrs)
  else if seg_addrs = [] then (σ, seg_addrs)
  else ts_store_go respond σ (chunksOf batch_size seg_addrs)

/-! ## END OF DEFINITIONS: theorems follow -/

/-! ### Arithmetic facts about the writer's time formatting -/

lemma pymod_nonneg (q d : ℚ) (hd : 0 < d) : 0 ≤ pymod q d := by
  have h1 : (⌊q / d⌋ : ℚ) ≤ q / d := Int.floor_le _
  have h2 : d * (⌊q / d⌋ : ℚ) ≤ d * (q / d) :=
    mul_le_mul_of_nonneg_left h1 (le_of_lt hd)
  have h3 : d * (q / d) = q := by field_simp
  unfold pymod
  linarith

lemma pymod_lt (q d : ℚ) (hd : 0 < d) : pymod q d < d := by
  have h1 : q / d - 1 < (⌊q / d⌋ : ℚ) := Int.sub_one_lt_floor _
  have h2 : d * (q / d - 1) < d * (⌊q / d⌋ : ℚ) := mul_lt_mul_of_pos_left h1 hd
  have h3 : d * (q / d) = q := by field_simp
  unfold pymod
  nlinarith

lemma pyint_of_nonneg (x : ℚ) (hx : 0 ≤ x) : pyint x = ⌊x⌋ := by
  unfold pyint; rw [if_pos hx]

/-- `int(q % d)` is `⌊q⌋ % d` for a positive integer divisor `d`. -/
lemma pyint_pymod (q : ℚ) (d : ℕ) (hd : 0 < d) : pyint (pymod q (d : ℚ)) = ⌊q⌋ % (d : ℤ) := by
  have hd' : (0 : ℚ) < (d : ℚ) := by exact_mod_cast hd
  rw [pyint_of_nonneg _ (pymod_nonneg q d hd')]
  have hcast : ((d : ℚ) * (⌊q / (d : ℚ)⌋ : ℚ)) = (((d : ℤ) * ⌊q / (d : ℚ)⌋ : ℤ) : ℚ) := by
    push_cast; ring
  have hfloor : ⌊pymod q (d : ℚ)⌋ = ⌊q⌋ - (d : ℤ) * ⌊q / (d : ℚ)⌋ := by
    unfold pymod
    rw [hcast, Int.floor_sub_int]
  rw [hfloor]
  have h0 : (0 : ℤ) ≤ ⌊q⌋ - (d : ℤ) * ⌊q / (d : ℚ)⌋ := by
    have h' : (0 : ℤ) ≤ ⌊pymod q (d : ℚ)⌋ := Int.floor_nonneg.mpr (pymod_nonneg q d hd')
    rwa [hfloor] at h'
  have h1 : ⌊q⌋ - (d : ℤ) * ⌊q / (d : ℚ)⌋ < (d : ℤ) := by
    have h' : ⌊pymod q (d : ℚ)⌋ < (d : ℤ) :=
      Int.floor_lt.mpr (by exact_mod_cast pymod_lt q d hd')
    rwa [hfloor] at h'
  have key : (⌊q⌋ - (d : ℤ) * ⌊q / (d : ℚ)⌋) % (d : ℤ) = ⌊q⌋ % (d : ℤ) := by
    have h2 : ⌊q⌋ - (d : ℤ) * ⌊q / (d : ℚ)⌋ = ⌊q⌋ + (d : ℤ) * (-⌊q / (d : ℚ)⌋) := by ring
    rw [h2, Int.add_mul_emod_self_left]
  rw [← key, Int.emod_eq_of_lt h0 h1]

/-- `int((q % 1) * 1000)` truncates the milliseconds. -/
lemma pyint_mils (q : ℚ) : pyint (pymod q 1 * 1000) = ⌊Int.fract q * 1000⌋ := by
  have h1 : pymod q 1 = Int.fract q := by
    unfold pymod Int.fract; rw [div_one]; ring
  rw [h1, pyint_of_nonneg]
  exact mul_nonneg (Int.fract_nonneg q) (by norm_num)

/-! ### Claim C3 -/

/-- C3 counterexample: the claim asserts `format_time(0.0005) = "00:00:00,001"`
(milliseconds computed by rounding).  The code computes
`int((seconds % 1) * 1000)`, which truncates, so `format_time (1/2000)`
is `"00:00:00,000"`. -/
theorem c3_counterexample :
    format_time (1/2000) = "00:00:00,000" ∧ "00:00:00,000" ≠ "00:00:00,001" := by
  constructor
  · norm_num [format_time, pyint, pymod]
    decide
  · decide

/-- C3 (amended): for every non-negative time, the SRT formatter derives
hours, minutes and seconds by floor division, but derives milliseconds by
TRUNCATING `(seconds mod 1) * 1000` (not by rounding `seconds*1000`);
under exact rational arithmetic `format_time (90123/1000) = "00:01:30,123"`,
while `format_time (1/2000) = "00:00:00,000"` (not `",001"`). -/
theorem c3_format_time_truncates :
    (∀ q : ℚ, 0 ≤ q →
      format_time q =
        zfill 2 (intToString ⌊q / 3600⌋) ++ ":" ++
        zfill 2 (intToString (⌊q / 60⌋ % 60)) ++ ":" ++
        zfill 2 (intToString (⌊q⌋ % 60)) ++ "," ++
        zfill 3 (intToString ⌊Int.fract q * 1000⌋)) ∧
    format_time (90123/1000) = "00:01:30,123" ∧
    format_time (1/2000) = "00:00:00,000" := by
  refine ⟨?_, ?_, ?_⟩
  · intro q hq
    unfold format_time
    rw [pyint_mils, pyint_of_nonneg _ (div_nonneg hq (by norm_num))]
    have h60 : pyint (pymod q 60) = ⌊q⌋ % 60 := by
      have h := pyint_pymod q 60 (by norm_num)
      norm_num at h
      exact h
    have h60' : pyint (pymod (q / 60) 60) = ⌊q / 60⌋ % 60 := by
      have h := pyint_pymod (q / 60) 60 (by norm_num)
      norm_num at h
      exact h
    rw [h60, h60']
  · norm_num [format_time, pyint, pymod]
    decide
  · norm_num [format_time, pyint, pymod]
    decide

/-- C3 witness: the general part of `c3_format_time_truncates` applied at
the concrete input `90123/1000`. -/
theorem c3_format_time_truncates_witness :
    format_time (90123/1000) =
      zfill 2 (intToString ⌊(90123/1000 : ℚ) / 3600⌋) ++ ":" ++
      zfill 2 (intToString (⌊(90123/1000 : ℚ) / 60⌋ % 60)) ++ ":" ++
      zfill 2 (intToString (⌊(90123/1000 : ℚ)⌋ % 60)) ++ "," ++
      zfill 3 (intToString ⌊Int.fract (90123/1000 : ℚ) * 1000⌋) :=
  c3_format_time_truncates.1 (90123/1000) (by norm_num)

/-! ### Claims C2 and C10 about `write_srt` -/

/-- The loop of `write_srt` on well-timed input emits exactly the
non-blank segments, numbered by their position in the original list. -/
lemma write_srt_go_ok (l : List RawSeg) :
    ∀ idx, (∀ s ∈ l, s.start ≠ none ∧ s.stop ≠ none) →
      write_srt_go idx l =
        Except.ok (((List.enumFrom idx l).filter (fun p => pystrip p.2.text != "")).map srtEntryAt) := by
  induction l with
  | nil => intro idx _; simp [write_srt_go]
  | cons a rest ih =>
    intro idx hall
    obtain ⟨hs, he⟩ := hall a (List.mem_cons_self a rest)
    obtain ⟨s, hs'⟩ := Option.ne_none_iff_exists'.mp hs
    obtain ⟨e, he'⟩ := Option.ne_none_iff_exists'.mp he
    have hrest := ih (idx + 1) (fun x hx => hall x (List.mem_cons_of_mem a hx))
    by_cases htrim : pystrip a.text = ""
    · simp only [write_srt_go, hs', he', htrim, if_pos rfl, List.enumFrom, List.filter]
      rw [hrest]
      simp [htrim]
    · simp only [write_srt_go, hs', he']
      rw [if_neg htrim, hrest]
      simp only [List.enumFrom, List.filter]
      have : (pystrip (idx, a).2.text != "") = true := by
        simp [htrim]
      rw [this]
      simp [srtEntryAt, hs', he']

/-- C2 counterexample: with a whitespace-only first segment followed by a
real one, the emitted numbering starts at 2, not 1 — the sequence number is
the segment's position in the ORIGINAL list, so skipping leaves gaps. -/
theorem c2_counterexample :
    write_srt [⟨" ", some 0, some 1⟩, ⟨"hi", some 1, some 2⟩] =
      Except.ok [⟨2, format_time 1, format_time 2, "hi"⟩] ∧ (2 : ℕ) ≠ 1 := by
  constructor
  · rfl
  · decide

/-- C2 (amended): segments with empty or whitespace-only text are skipped
without error, and each emitted block carries sequence number `idx + 1`
where `idx` is the segment's 0-based position in the ORIGINAL input list —
so skipped segments leave gaps in the numbering instead of the output being
renumbered consecutively from 1. -/
theorem c2_write_srt_numbering (segments : List RawSeg)
    (hall : ∀ s ∈ segments, s.start ≠ none ∧ s.stop ≠ none) :
    write_srt segments =
      Except.ok ((segments.enum.filter (fun p => pystrip p.2.text != "")).map srtEntryAt) := by
  rcases eq_or_ne segments [] with rfl | hne
  · simp [write_srt]
  · rw [write_srt, if_neg hne, write_srt_go_ok segments 0 hall]
    rfl

/-- C2 witness: `c2_write_srt_numbering` applied to a concrete list with a
blank segment between two real ones. -/
theorem c2_write_srt_numbering_witness :
    write_srt [⟨"a", some 0, some 1⟩, ⟨" ", some 1, some 2⟩, ⟨"b", some 2, some 3⟩] =
      Except.ok
        (([(0, (⟨"a", some 0, some 1⟩ : RawSeg)), (1, ⟨" ", some 1, some 2⟩),
           (2, ⟨"b", some 2, some 3⟩)].filter (fun p => pystrip p.2.text != "")).map srtEntryAt) :=
  c2_write_srt_numbering _ (by intro s hs; fin_cases hs <;> simp)

/-- C10 (confirmed): if any segment in the list is missing its start or end
field, `write_srt` raises a validation error — even when that segment's
text is empty or whitespace-only, because the field check precedes the
empty-text skip in the loop. -/
theorem c10_write_srt_missing_time_errors (segments : List RawSeg) (seg : RawSeg)
    (hmem : seg ∈ segments) (hmiss : seg.start = none ∨ seg.stop = none) :
    ∃ msg, write_srt segments = Except.error msg := by
  have hne : segments ≠ [] := by rintro rfl; simp at hmem
  rw [write_srt, if_neg hne]
  suffices h : ∀ idx, ∃ msg, write_srt_go idx segments = Except.error msg from h 0
  clear hne
  induction segments with
  | nil => simp at hmem
  | cons a rest ih =>
    intro idx
    rcases List.mem_cons.mp hmem with rfl | hrest
    · rcases hmiss with h | h
      · refine ⟨"segment " ++ toString idx ++ " missing start or end", ?_⟩
        simp only [write_srt_go, h]
      · refine ⟨"segment " ++ toString idx ++ " missing start or end", ?_⟩
        cases hsa : seg.start <;> simp only [write_srt_go, h, hsa]
    · cases hsa : a.start with
      | none =>
        exact ⟨"segment " ++ toString idx ++ " missing start or end", by
          simp only [write_srt_go, hsa]⟩
      | some s =>
        cases hea : a.stop with
        | none =>
          exact ⟨"segment " ++ toString idx ++ " missing start or end", by
            simp only [write_srt_go, hsa, hea]⟩
        | some e =>
          obtain ⟨msg, hmsg⟩ := ih hrest (idx + 1)
          refine ⟨msg, ?_⟩
          simp only [write_srt_go, hsa, hea]
          by_cases htrim : pystrip a.text = ""
          · rw [if_pos htrim, hmsg]
          · rw [if_neg htrim, hmsg]

/-- C10 witness: a concrete list whose middle, blank-text segment lacks an
end time still makes `write_srt` fail. -/
theorem c10_write_srt_missing_time_errors_witness :
    ∃ msg, write_srt [⟨"a", some 0, some 1⟩, ⟨" ", some 1, none⟩] = Except.error msg :=
  c10_write_srt_missing_time_errors _ ⟨" ", some 1, none⟩ (by simp) (Or.inr rfl)

/-! ### Claim C1 about `group_words` -/

/-- The groups produced by the `group_words` loop concatenate back to the
input (`group` is the accumulated current group). -/
lemma group_words_go_join (wpl : ℕ) (enders : List Char) (θ : ℚ) :
    ∀ (toks : List Seg) (group : List Seg),
      (group_words_go wpl enders θ group toks).flatten =
        if toks = [] then [] else group ++ toks := by
  intro toks
  induction toks with
  | nil => intro group; simp [group_words_go]
  | cons w rest ih =>
    intro group
    rw [group_words_go]
    by_cases hcond : wpl ≤ (group ++ [w]).length ∨ contains_ender enders w.text ∨
        (rest ≠ [] ∧ θ ≤ w.stop - w.start) ∨ rest = []
    · rw [if_pos hcond]
      have hne : (group ++ [w]) ≠ [] := by simp
      rw [if_neg hne]
      rcases eq_or_ne rest [] with rfl | hrest
      · simp [group_words_go]
      · rw [List.flatten_append, ih [], if_neg hrest]
        simp
    · rw [if_neg hcond]
      have hrest : rest ≠ [] := by
        intro h; exact hcond (Or.inr (Or.inr (Or.inr h)))
      rw [ih (group ++ [w]), if_neg hrest, if_neg (List.cons_ne_nil w rest)]
      simp

/-- C1 counterexample: two tokens `a` (start 0, end 1) and `b` (start 1,
end 2) with `words_per_line = 10`, no sentence enders, threshold `1/5`.
The gap between `a`'s end and `b`'s start is `0 < 1/5`, so under the claimed
(next-start minus current-end) pause test the two tokens would stay in one
group — as `group_words_gap`, modelled from the spec's words, shows.  The
code instead closes the group after `a`, because `a`'s own duration is
`1 ≥ 1/5`. -/
theorem c1_counterexample :
    group_words [⟨"a", 0, 1⟩, ⟨"b", 1, 2⟩] 10 [] (1/5) =
      [[⟨"a", 0, 1⟩], [⟨"b", 1, 2⟩]] ∧
    group_words_gap [⟨"a", 0, 1⟩, ⟨"b", 1, 2⟩] 10 [] (1/5) =
      [[⟨"a", 0, 1⟩, ⟨"b", 1, 2⟩]] := by
  constructor
  · norm_num [group_words, group_words_go, contains_ender]
    simp
  · norm_num [group_words_gap, group_words_gap_go, contains_ender]
    simp

/-- C1 (amended): `group_words` closes the current group exactly when any
of these holds — the group has reached `words_per_line`, the current token's
text contains a sentence-ending character, the CURRENT token's own duration
(`end - start`) is at least `pause_threshold` while the token is not last,
or the token is the last one.  The pause test uses the token's own duration,
not the gap from the token's end to the next token's start.  Concatenating
the produced groups restores the token list, so each token belongs to
exactly one group. -/
theorem c1_group_words_closing :
    (∀ (toks : List Seg) (wpl : ℕ) (enders : List Char) (θ : ℚ),
      (group_words toks wpl enders θ).flatten = toks) ∧
    (∀ (wpl : ℕ) (enders : List Char) (θ : ℚ) (group : List Seg) (w : Seg) (rest : List Seg),
      group_words_go wpl enders θ group (w :: rest) =
        if wpl ≤ (group ++ [w]).length ∨ contains_ender enders w.text ∨
            (rest ≠ [] ∧ θ ≤ w.stop - w.start) ∨ rest = []
        then (group ++ [w]) :: group_words_go wpl enders θ [] rest
        else group_words_go wpl enders θ (group ++ [w]) rest) := by
  constructor
  · intro toks wpl enders θ
    rcases eq_or_ne toks [] with rfl | hne
    · simp [group_words]
    · rw [group_words, if_neg hne, group_words_go_join, if_neg hne]
      simp
  · intro wpl enders θ group w rest
    rw [group_words_go]
    have hne : (group ++ [w]) ≠ [] := by simp
    by_cases hcond : wpl ≤ (group ++ [w]).length ∨ contains_ender enders w.text ∨
        (rest ≠ [] ∧ θ ≤ w.stop - w.start) ∨ rest = []
    · rw [if_pos hcond, if_pos hcond, if_neg hne]
      rfl
    · rw [if_neg hcond, if_neg hcond]

/-! ### Claim C6 about `tokenize_by_cjk` -/

/-- Token characterizations survive prepending input characters. -/
lemma tokOk_prepend (pre items : List TChar) (t : Seg) :
    TokSingle items t ∨ TokFromRun items t →
    TokSingle (pre ++ items) t ∨ TokFromRun (pre ++ items) t := by
  rintro (⟨x, hx, hxc, hxt⟩ | ⟨p, r, q, hitems, hr, ht, hs, hstop⟩)
  · exact Or.inl ⟨x, List.mem_append_right pre hx, hxc, hxt⟩
  · refine Or.inr ⟨pre ++ p, r, q, ?_, hr, ht, hs, hstop⟩
    rw [hitems]
    simp

/-- Every token emitted by the tokenizer loop, run with an accumulator
corresponding to the ghost character list `acc`, is either a
single-character punctuation/CJK token or a run token in the sense of
`TokSingle` / `TokFromRun` over `acc ++ items`. -/
lemma tokenize_go_spec :
    ∀ (items acc : List TChar),
      ∀ t ∈ tokenize_go items (String.mk (acc.map (fun x => x.1)))
              (acc.head?.map (fun x => x.2.1)),
        TokSingle (acc ++ items) t ∨ TokFromRun (acc ++ items) t := by
  intro items
  induction items with
  | nil => intro acc t ht; simp [tokenize_go] at ht
  | cons x rest ih =>
    obtain ⟨c, s, e⟩ := x
    intro acc t ht
    have hassoc : acc ++ (c, s, e) :: rest = (acc ++ [(c, s, e)]) ++ rest := by simp
    have hmk_push : (String.mk (acc.map (fun x => x.1))).push c =
        String.mk ((acc ++ [(c, s, e)]).map (fun x => x.1)) := by
      simp [String.push]
    have hrec_empty : ∀ t', t' ∈ tokenize_go rest "" none →
        TokSingle (acc ++ (c, s, e) :: rest) t' ∨ TokFromRun (acc ++ (c, s, e) :: rest) t' := by
      intro t' ht'
      rw [hassoc]
      refine tokOk_prepend _ _ _ (ih [] t' ?_)
      simpa using ht'
    have hflush : ∀ (a : TChar) (acc' : List TChar), acc = a :: acc' →
        TokFromRun (acc ++ (c, s, e) :: rest)
          ⟨String.mk (acc.map (fun x => x.1)), a.2.1, s⟩ := by
      rintro a acc' rfl
      exact ⟨[], a :: acc', (c, s, e) :: rest, by simp, by simp, rfl, by simp, Or.inl ⟨by simp, rfl⟩⟩
    have hsingle : (punctuation_chars.contains c ∨ is_cjk c) →
        TokSingle (acc ++ (c, s, e) :: rest) ⟨String.singleton c, s, e⟩ := by
      intro hc
      exact ⟨(c, s, e), by simp, hc, rfl⟩
    rw [tokenize_go] at ht
    by_cases hpunct : punctuation_chars.contains c
    · rw [if_pos hpunct] at ht
      rcases List.mem_append.mp ht with hflushed | hrest
      · have hne : String.mk (acc.map (fun x => x.1)) ≠ "" := by
          by_contra hcon
          rw [if_neg (not_not_intro hcon)] at hflushed
          simp at hflushed
        rw [if_pos hne] at hflushed
        have hacc : acc ≠ [] := by
          intro h; exact hne (by rw [h]; rfl)
        obtain ⟨a, acc', rfl⟩ := List.exists_cons_of_ne_nil hacc
        simp only [List.mem_singleton] at hflushed
        have ht' : t = ⟨String.mk ((a :: acc').map (fun x => x.1)), a.2.1, s⟩ := by
          rw [hflushed]; simp
        exact Or.inr (ht' ▸ hflush a acc' rfl)
      · rcases List.mem_cons.mp hrest with rfl | hrec
        · exact Or.inl (hsingle (Or.inl hpunct))
        · exact hrec_empty t hrec
    · rw [if_neg hpunct] at ht
      have hws : (some ((acc.head?.map (fun x => x.2.1)).getD s)) =
          ((acc ++ [(c, s, e)]).head?.map (fun x => x.2.1)) := by
        cases acc with
        | nil => simp
        | cons a acc' => simp
      by_cases hcjk : is_cjk c
      · rw [if_pos hcjk] at ht
        rcases List.mem_append.mp ht with hflushed | hrest
        · have hne : String.mk (acc.map (fun x => x.1)) ≠ "" := by
            by_contra hcon
            rw [if_neg (not_not_intro hcon)] at hflushed
            simp at hflushed
          rw [if_pos hne] at hflushed
          have hacc : acc ≠ [] := by
            intro h; exact hne (by rw [h]; rfl)
          obtain ⟨a, acc', rfl⟩ := List.exists_cons_of_ne_nil hacc
          simp only [List.mem_singleton] at hflushed
          have ht' : t = ⟨String.mk ((a :: acc').map (fun x => x.1)), a.2.1, s⟩ := by
            rw [hflushed]; simp
          exact Or.inr (ht' ▸ hflush a acc' rfl)
        · rcases List.mem_cons.mp hrest with rfl | hrec
          · exact Or.inl (hsingle (Or.inr hcjk))
          · exact hrec_empty t hrec
      · rw [if_neg hcjk] at ht
        by_cases hwsp : c.isWhitespace
        · rw [if_pos hwsp] at ht
          rcases List.mem_append.mp ht with hflushed | hrec
          · have hne : String.mk (acc.map (fun x => x.1)) ≠ "" := by
              by_contra hcon
              rw [if_neg (not_not_intro hcon)] at hflushed
              simp at hflushed
            rw [if_pos hne] at hflushed
            have hacc : acc ≠ [] := by
              intro h; exact hne (by rw [h]; rfl)
            obtain ⟨a, acc', rfl⟩ := List.exists_cons_of_ne_nil hacc
            simp only [List.mem_singleton] at hflushed
            have ht' : t = ⟨String.mk ((a :: acc').map (fun x => x.1)), a.2.1, s⟩ := by
              rw [hflushed]; simp
            exact Or.inr (ht' ▸ hflush a acc' rfl)
          · exact hrec_empty t hrec
        · rw [if_neg hwsp] at ht
          by_cases hlast : rest = []
          · rw [if_pos hlast] at ht
            simp only [List.mem_singleton] at ht
            subst hlast
            refine Or.inr ⟨[], acc ++ [(c, s, e)], [], by simp, by simp, ?_, ?_, Or.inr ⟨rfl, ?_⟩⟩
            · rw [ht]; simpa using hmk_push
            · rw [ht]
              cases acc with
              | nil => simp
              | cons a acc' => simp
            · rw [ht]
              simp
          · rw [if_neg hlast] at ht
            rw [hassoc]
            refine ih (acc ++ [(c, s, e)]) t ?_
            rw [← hmk_push, ← hws]
            exact ht

/-- C6 counterexample: for `chars = ['h','i',' ']` with starts `[0,1,3]` and
ends `[1,2,4]`, the run token `"hi"` is flushed at the whitespace boundary
and receives `end = 3` — the START time of the space character — whereas the
claim says its end is the end-timestamp of the last contributed character
`'i'`, which is `2`. -/
theorem c6_counterexample :
    tokenize_by_cjk ['h', 'i', ' '] [0, 1, 3] [1, 2, 4] = [⟨"hi", 0, 3⟩] ∧ (3 : ℚ) ≠ 2 := by
  constructor
  · decide
  · decide

/-- C6 (amended): every emitted token either is a single punctuation/CJK
character spanning exactly that character's `start..end`, or corresponds to
a contiguous run of input characters with `start` equal to the run's FIRST
character's start-timestamp and `end` equal to the start-timestamp of the
boundary character that triggered the flush — except for a run flushed at
the end of the sequence, whose `end` is the LAST contributed character's
end-timestamp. -/
theorem c6_token_timestamps (chars : List Char) (starts stops : List ℚ) :
    ∀ t ∈ tokenize_by_cjk chars starts stops,
      TokSingle (zip3 chars starts stops) t ∨ TokFromRun (zip3 chars starts stops) t := by
  intro t ht
  rw [tokenize_by_cjk] at ht
  by_cases hchars : chars = []
  · rw [if_pos hchars] at ht; simp at ht
  · rw [if_neg hchars] at ht
    have := tokenize_go_spec (zip3 chars starts stops) [] t (by simpa using ht)
    simpa using this

/-- C6 witness: the amended theorem applied to the concrete input of the
counterexample; its membership hypothesis is discharged by evaluation. -/
theorem c6_token_timestamps_witness :
    TokSingle (zip3 ['h', 'i', ' '] [0, 1, 3] [1, 2, 4]) ⟨"hi", 0, 3⟩ ∨
      TokFromRun (zip3 ['h', 'i', ' '] [0, 1, 3] [1, 2, 4]) ⟨"hi", 0, 3⟩ :=
  c6_token_timestamps ['h', 'i', ' '] [0, 1, 3] [1, 2, 4] ⟨"hi", 0, 3⟩ (by decide)

/-! ### Claim C8 about the seamless FCPXML export -/

lemma seamless_titles_length : ∀ cues : List Cue, (seamless_titles cues).length = cues.length := by
  intro cues
  induction cues with
  | nil => rfl
  | cons c rest ih =>
    cases rest with
    | nil => rfl
    | cons c2 rest' =>
      rw [seamless_titles]
      simpa using ih

/-- C8 counterexample: cues `[1000,2000]`, `[3000,4000]` (ms).  The FIRST
cue is shifted to 966 (the shift applies to every cue whose start exceeds
34 ms, the first included), contradicting "except the very first cue";
and its stretched duration 2034 makes it end at 3000 — the next cue's
UNADJUSTED start — not at the next cue's adjusted start 2966. -/
theorem c8_counterexample :
    seamless_titles [⟨1000, 2000⟩, ⟨3000, 4000⟩] = [(966, 2034), (2966, 1000)] ∧
    (966 : ℤ) ≠ 1000 ∧ (966 : ℤ) + 2034 ≠ 2966 := by
  refine ⟨?_, by decide, by decide⟩
  decide

/-- C8 (amended): in seamless mode every cue whose start ordinal exceeds
34 ms — including the first — is shifted backward by the 34-tick lead-in
(cues starting at ≤ 34 ms are not shifted), and every non-last cue's
duration is stretched so that its displayed start plus duration equals the
NEXT cue's unadjusted (pre-shift) start: no gap remains, and when the next
cue is itself shifted the two overlap by the 34-tick lead-in.  The last
cue keeps its own duration. -/
theorem c8_seamless_titles (cues : List Cue) :
    (seamless_titles cues).length = cues.length ∧
    (seamless_titles cues).getLast? =
      cues.getLast?.map (fun c => (seamless_adjusted_start c, c.stop - c.start)) ∧
    ∀ i, i + 1 < cues.length →
      ((seamless_titles cues).getD i (0, 0)).1 =
          seamless_adjusted_start (cues.getD i ⟨0, 0⟩) ∧
        ((seamless_titles cues).getD i (0, 0)).1 + ((seamless_titles cues).getD i (0, 0)).2 =
          (cues.getD (i + 1) ⟨0, 0⟩).start := by
  refine ⟨seamless_titles_length cues, ?_, ?_⟩
  · induction cues with
    | nil => rfl
    | cons c rest ih =>
      cases rest with
      | nil => rfl
      | cons c2 rest' =>
        have hne : seamless_titles (c2 :: rest') ≠ [] := by
          intro h
          have hl := seamless_titles_length (c2 :: rest')
          rw [h] at hl
          simp at hl
        rw [seamless_titles, ← List.singleton_append,
          List.getLast?_append_of_ne_nil _ hne, ih, List.getLast?_cons_cons]
  · induction cues with
    | nil => intro i hi; simp at hi
    | cons c rest ih =>
      intro i hi
      cases rest with
      | nil => simp at hi
      | cons c2 rest' =>
        cases i with
        | zero =>
          constructor
          · rfl
          · show seamless_adjusted_start c + (c2.start - seamless_adjusted_start c) = c2.start
            ring
        | succ j =>
          have hj : j + 1 < (c2 :: rest').length := by
            simpa using hi
          have := ih j hj
          simpa [seamless_titles] using this

/-- C8 witness: the amended theorem instantiated at the counterexample's
cue list and index 0. -/
theorem c8_seamless_titles_witness :
    ((seamless_titles [⟨1000, 2000⟩, ⟨3000, 4000⟩]).getD 0 (0, 0)).1 =
        seamless_adjusted_start ((([⟨1000, 2000⟩, ⟨3000, 4000⟩] : List Cue)).getD 0 ⟨0, 0⟩) ∧
      ((seamless_titles [⟨1000, 2000⟩, ⟨3000, 4000⟩]).getD 0 (0, 0)).1 +
          ((seamless_titles [⟨1000, 2000⟩, ⟨3000, 4000⟩]).getD 0 (0, 0)).2 =
        ((([⟨1000, 2000⟩, ⟨3000, 4000⟩] : List Cue)).getD 1 ⟨0, 0⟩).start :=
  (c8_seamless_titles [⟨1000, 2000⟩, ⟨3000, 4000⟩]).2.2 0 (by decide)

/-! ### Claim C7 about `_request_with_retry` -/

/-- C7 counterexample: a 500 response followed by a successful 200.  The
claim says non-200/non-429 statuses are retried up to the cap, which would
reach the 200 and return `ok`; the helper instead raises immediately on the
500, with no retry and no sleep. -/
theorem c7_counterexample :
    request_with_retry 3 [Outcome.resp 500 none, Outcome.resp 200 (some "ok")] =
      (Except.error (ReqError.statusErr 500), []) ∧
    (Except.error (ReqError.statusErr 500) : Except ReqError (Option String)) ≠
      Except.ok (some "ok") := by
  constructor
  · rfl
  · simp

/-- C7 (amended): a non-200, non-429 HTTP status makes the helper raise
IMMEDIATELY, with no retry and no sleep (the `raise` escapes the
`except (Timeout, RequestException)` clause); only network/timeout
exceptions are retried, each preceded by the fixed 2-second delay, up to
`max_retries` retries, after which the helper raises — a trace of
`max_retries + 1` consecutive network failures yields the error after
exactly `max_retries` fixed 2-second sleeps. -/
theorem c7_retry_behavior :
    (∀ (max_retries s : ℕ) (content : Option String) (rest : List Outcome) (rc : ℕ),
      s ≠ 200 → s ≠ 429 →
      request_with_retry_go max_retries (Outcome.resp s content :: rest) rc =
        (Except.error (ReqError.statusErr s), [])) ∧
    (∀ (max_retries : ℕ) (rest : List Outcome) (rc : ℕ),
      rc + 1 ≤ max_retries →
      request_with_retry_go max_retries (Outcome.netExc :: rest) rc =
        ((request_with_retry_go max_retries rest (rc + 1)).1,
          2 :: (request_with_retry_go max_retries rest (rc + 1)).2)) ∧
    (∀ max_retries : ℕ,
      request_with_retry max_retries (List.replicate (max_retries + 1) Outcome.netExc) =
        (Except.error ReqError.netErr, List.replicate max_retries 2)) := by
  refine ⟨?_, ?_, ?_⟩
  · intro max_retries s content rest rc h200 h429
    rw [request_with_retry_go, if_neg h200, if_neg h429]
  · intro max_retries rest rc hle
    rw [request_with_retry_go, if_neg (by omega)]
  · have aux : ∀ (k max_retries rc : ℕ), rc + k = max_retries →
        request_with_retry_go max_retries (List.replicate (k + 1) Outcome.netExc) rc =
          (Except.error ReqError.netErr, List.replicate k 2) := by
      intro k
      induction k with
      | zero =>
        intro max_retries rc hrc
        rw [List.replicate, List.replicate, request_with_retry_go, if_pos (by omega)]
      | succ k ih =>
        intro max_retries rc hrc
        rw [List.replicate, request_with_retry_go, if_neg (by omega),
          ih max_retries (rc + 1) (by omega)]
        rfl
    intro max_retries
    exact aux max_retries max_retries 0 (by omega)

/-- C7 witness: the first two parts of `c7_retry_behavior` at concrete
inputs. -/
theorem c7_retry_behavior_witness :
    request_with_retry_go 3 [Outcome.resp 500 none] 0 =
      (Except.error (ReqError.statusErr 500), []) ∧
    request_with_retry_go 3 [Outcome.netExc] 0 =
      ((request_with_retry_go 3 ([] : List Outcome) 1).1,
        2 :: (request_with_retry_go 3 ([] : List Outcome) 1).2) :=
  ⟨c7_retry_behavior.1 3 500 none [] 0 (by decide) (by decide),
   c7_retry_behavior.2.1 3 [] 0 (by norm_num)⟩

/-! ### Claim C5 about `translate_segments` -/

lemma translate_batch_length (texts : List String) (raw : Option String) :
    (translate_batch texts raw).length = texts.length := by
  rcases raw with _ | r
  · simp [translate_batch]
  · simp only [translate_batch]
    split_ifs <;>
      simp_all [List.length_take, List.length_dropLast, List.length_map, List.length_append,
        List.length_replicate] <;>
      omega

lemma chunksOf_flatten {α : Type} (l : List α) : (chunksOf batch_size l).flatten = l := by
  have aux : ∀ (k : ℕ) (l : List α), l.length ≤ k → (chunksOf batch_size l).flatten = l := by
    intro k
    induction k with
    | zero =>
      intro l hl
      have hnil : l = [] := List.length_eq_zero.mp (Nat.le_zero.mp hl)
      subst hnil
      rw [chunksOf]
      simp
    | succ k ih =>
      intro l hl
      rw [chunksOf]
      by_cases h : l.length = 0 ∨ batch_size = 0
      · rw [dif_pos h]
        rcases h with h0 | h20
        · rw [List.length_eq_zero.mp h0]
          rfl
        · simp [batch_size] at h20
      · rw [dif_neg h]
        push_neg at h
        rw [List.flatten_cons, ih (l.drop batch_size) ?_, List.take_append_drop]
        rw [List.length_drop]
        have h2 : batch_size = 20 := rfl
        omega

  exact aux l.length l le_rfl

lemma chunksOf_single (l : List Seg) (hne : l ≠ []) (hlen : l.length ≤ batch_size) :
    chunksOf batch_size l = [l] := by
  rw [chunksOf, dif_neg (by simp [batch_size, hne])]
  rw [List.take_of_length_le hlen, List.drop_eq_nil_of_le hlen]
  rw [chunksOf]
  simp

/-- C5 (confirmed): `translate_segments` always returns exactly as many
segments as it was given, and — for a batch whose response splits into
fewer separator-delimited pieces than the batch has segments — the entries
past the available pieces keep their original text (`_translate_batch`
pads the missing tail with `None`, and `translate_segments` keeps the
original text for `None`); excess pieces are truncated (the length
identity holds for EVERY response).  No branch raises: every failure path
returns a value. -/
theorem c5_translate_segments_length_and_recovery :
    (∀ (available : Bool) (segments : List Seg) (respond : List String → Option String),
      (translate_segments available segments respond).length = segments.length) ∧
    (∀ (segments : List Seg) (respond : List String → Option String) (raw : String),
      segments ≠ [] → segments.length ≤ batch_size →
      respond (segments.map (fun s => s.text)) = some raw →
      ∀ i, ((pysplit raw separator).map pystrip).length ≤ i → i < segments.length →
        ((translate_segments true segments respond).getD i default).text =
          (segments.getD i default).text) := by
  constructor
  · intro available segments respond
    rw [translate_segments]
    by_cases hav : ¬available
    · rw [if_pos hav]
    · rw [if_neg hav]
      by_cases hseg : segments = []
      · rw [if_pos hseg]
      · rw [if_neg hseg]
        have aux : ∀ bs : List (List Seg),
            (bs.flatMap (fun batch =>
              (batch.zip (translate_batch (batch.map (fun s => s.text))
                (respond (batch.map (fun s => s.text))))).map
                  (fun p => apply_translation p.1 p.2))).length = bs.flatten.length := by
          intro bs
          induction bs with
          | nil => rfl
          | cons b bs ih =>
            simp only [List.flatMap_cons, List.flatten_cons, List.length_append, ih]
            congr 1
            rw [List.length_map, List.length_zip, translate_batch_length, List.length_map]
            exact Nat.min_self _
        rw [aux, chunksOf_flatten]
  · intro segments respond raw hne hlen hresp i hip hi
    rw [translate_segments, if_neg (by simp), if_neg hne, chunksOf_single segments hne hlen]
    simp only [List.flatMap_cons, List.flatMap_nil, List.append_nil]
    rw [hresp]
    have htlen : (segments.map (fun s => s.text)).length = segments.length := List.length_map _ _
    have happly : ∀ (segs : List Seg) (ts : List (Option String)) (j : ℕ),
        ((segs.zip ts).map (fun p => apply_translation p.1 p.2))[j]? =
          (segs[j]?).bind (fun s => (ts[j]?).map (fun t => apply_translation s t)) := by
      intro segs
      induction segs with
      | nil => intro ts j; simp
      | cons s ss ih =>
        intro ts j
        cases ts with
        | nil => cases j <;> simp
        | cons t tt =>
          cases j with
          | zero => simp
          | succ j => simpa using ih tt j
    have hts : (translate_batch (segments.map (fun s => s.text)) (some raw))[i]? =
        some none := by
      simp only [translate_batch]
      by_cases hraw : raw = ""
      · rw [if_pos hraw]
        rw [List.getElem?_replicate]
        rw [if_pos (by omega)]
      · rw [if_neg hraw]
        have hpop : ¬((segments.map (fun s => s.text)).length <
            ((pysplit raw separator).map pystrip).length ∧
            ((pysplit raw separator).map pystrip).getLast? = some "") := by
          rw [htlen]
          intro hcon
          omega
        rw [if_neg hpop]
        have htrunc : ¬((segments.map (fun s => s.text)).length <
            ((pysplit raw separator).map pystrip).length) := by
          rw [htlen]; omega
        rw [if_neg htrunc]
        rw [List.getElem?_append_right (by simpa using hip)]
        rw [List.getElem?_replicate]
        have hip' := hip
        simp only [List.length_map] at hip'
        rw [if_pos (by simp only [List.length_map, htlen]; omega)]
    rw [List.getD_eq_getElem?_getD, List.getD_eq_getElem?_getD, happly, hts]
    cases hsi : segments[i]? <;> simp [apply_translation]

/-- C5 witness: two segments, one response piece — entry 1 keeps its
original text. -/
theorem c5_translate_segments_witness :
    ((translate_segments true [⟨"a", 0, 1⟩, ⟨"b", 1, 2⟩]
        (fun _ => some "X")).getD 1 default).text =
      (([⟨"a", 0, 1⟩, ⟨"b", 1, 2⟩] : List Seg).getD 1 default).text :=
  c5_translate_segments_length_and_recovery.2 [⟨"a", 0, 1⟩, ⟨"b", 1, 2⟩]
    (fun _ => some "X") "X" (by simp) (by norm_num [batch_size]) rfl 1 (by decide) (by decide)

/-! ### Claim C4 about `build_segments` -/

lemma zip3_mem {chars : List Char} {starts stops : List ℚ} {x : TChar}
    (hx : x ∈ zip3 chars starts stops) : x.2.1 ∈ starts ∧ x.2.2 ∈ stops := by
  obtain ⟨c, p, rfl⟩ : ∃ c p, x = (c, p) := ⟨x.1, x.2, rfl⟩
  have h2 := (List.of_mem_zip hx).2
  obtain ⟨a, b, rfl⟩ : ∃ a b, p = (a, b) := ⟨p.1, p.2, rfl⟩
  exact ⟨(List.of_mem_zip h2).1, (List.of_mem_zip h2).2⟩

lemma zip3_pairwise : ∀ (chars : List Char) (starts stops : List ℚ),
    starts.Pairwise (· ≤ ·) →
    (zip3 chars starts stops).Pairwise (fun a b : TChar => a.2.1 ≤ b.2.1) := by
  intro chars
  induction chars with
  | nil => intro starts stops _; simp [zip3]
  | cons c cs ih =>
    intro starts stops h
    cases starts with
    | nil => simp [zip3]
    | cons s ss =>
      cases stops with
      | nil => simp [zip3]
      | cons e es =>
        rw [List.pairwise_cons] at h
        rw [show zip3 (c :: cs) (s :: ss) (e :: es) = (c, s, e) :: zip3 cs ss es from rfl,
          List.pairwise_cons]
        refine ⟨?_, ih ss es h.2⟩
        intro x hx
        exact h.1 _ (zip3_mem hx).1

lemma zip3_wf : ∀ (chars : List Char) (starts stops : List ℚ),
    List.Forall₂ (· ≤ ·) starts stops →
    ∀ x ∈ zip3 chars starts stops, x.2.1 ≤ x.2.2 := by
  intro chars
  induction chars with
  | nil => intro starts stops _ x hx; simp [zip3] at hx
  | cons c cs ih =>
    intro starts stops h x hx
    cases starts with
    | nil => simp [zip3] at hx
    | cons s ss =>
      cases stops with
      | nil => simp [zip3] at hx
      | cons e es =>
        rw [List.forall₂_cons] at h
        rw [show zip3 (c :: cs) (s :: ss) (e :: es) = (c, s, e) :: zip3 cs ss es from rfl] at hx
        rcases List.mem_cons.mp hx with rfl | hx'
        · exact h.1
        · exact ih ss es h.2 x hx'

/-- Standard-mode loop: every emitted segment has `start ≤ stop` and
non-empty text, and respects every lower bound on the pending
accumulator start and the upcoming character starts. -/
lemma std_go_mem (cfg : BuilderConfig) (ill : Bool) :
    ∀ (items : List TChar) (cur : String) (cs : Option ℚ),
      (∀ x ∈ items, x.2.1 ≤ x.2.2) →
      items.Pairwise (fun a b => a.2.1 ≤ b.2.1) →
      (∀ s₀, cs = some s₀ → ∀ x ∈ items, s₀ ≤ x.2.1) →
      ∀ seg ∈ build_segments_standard_go cfg ill items cur cs,
        seg.start ≤ seg.stop ∧ seg.text ≠ "" ∧
        ∀ b : ℚ, (∀ x ∈ items, b ≤ x.2.1) → (∀ s₀, cs = some s₀ → b ≤ s₀) → b ≤ seg.start := by
  intro items
  induction items with
  | nil => intro cur cs _ _ _ seg hseg; simp [build_segments_standard_go] at hseg
  | cons x rest ih =>
    obtain ⟨c, s, e⟩ := x
    intro cur cs hwf hpw hcs seg hseg
    have hse : s ≤ e := hwf (c, s, e) (List.mem_cons_self _ _)
    have hsrest : ∀ y ∈ rest, s ≤ y.2.1 := fun y hy => (List.pairwise_cons.mp hpw).1 y hy
    have hwfrest : ∀ y ∈ rest, y.2.1 ≤ y.2.2 :=
      fun y hy => hwf y (List.mem_cons_of_mem _ hy)
    have hpwrest := (List.pairwise_cons.mp hpw).2
    have hstart_le_s : ∀ s₀, cs = some s₀ → s₀ ≤ s :=
      fun s₀ h₀ => hcs s₀ h₀ (c, s, e) (List.mem_cons_self _ _)
    rw [build_segments_standard_go] at hseg
    split_ifs at hseg with hcond hclean
    · rcases List.mem_append.mp hseg with hemit | hrec
      · simp only [List.mem_singleton] at hemit
        subst hemit
        refine ⟨?_, hclean, ?_⟩
        · cases hcs0 : cs with
          | none => simpa using hse
          | some s₀ =>
            have := hstart_le_s s₀ hcs0
            simp only [hcs0, Option.getD_some]
            linarith
        · intro b hb1 hb2
          cases hcs0 : cs with
          | none => simpa using hb1 (c, s, e) (List.mem_cons_self _ _)
          | some s₀ => simpa [hcs0] using hb2 s₀ hcs0
      · have := ih "" none hwfrest hpwrest (by simp) seg hrec
        refine ⟨this.1, this.2.1, ?_⟩
        intro b hb1 _
        exact this.2.2 b (fun y hy => hb1 y (List.mem_cons_of_mem _ hy)) (by simp)
    · rw [List.nil_append] at hseg
      have := ih "" none hwfrest hpwrest (by simp) seg hseg
      refine ⟨this.1, this.2.1, ?_⟩
      intro b hb1 _
      exact this.2.2 b (fun y hy => hb1 y (List.mem_cons_of_mem _ hy)) (by simp)
    · have hcs' : ∀ s₀, some (cs.getD s) = some s₀ → ∀ y ∈ rest, s₀ ≤ y.2.1 := by
        intro s₀ h₀ y hy
        rw [Option.some_inj] at h₀
        subst h₀
        cases hcs0 : cs with
        | none => simpa using hsrest y hy
        | some s₁ =>
          simp only [hcs0, Option.getD_some]
          exact hcs s₁ hcs0 y (List.mem_cons_of_mem _ hy)
      have := ih (cur.push c) (some (cs.getD s)) hwfrest hpwrest hcs' seg hseg
      refine ⟨this.1, this.2.1, ?_⟩
      intro b hb1 hb2
      refine this.2.2 b (fun y hy => hb1 y (List.mem_cons_of_mem _ hy)) ?_
      intro s₀ h₀
      rw [Option.some_inj] at h₀
      subst h₀
      cases hcs0 : cs with
      | none => simpa using hb1 (c, s, e) (List.mem_cons_self _ _)
      | some s₁ => simpa [hcs0] using hb2 s₁ hcs0

/-- Tokenizer loop: every token satisfies `start ≤ stop` and respects lower
bounds on the pending word start and the upcoming character starts. -/
lemma tok_go_mem :
    ∀ (items : List TChar) (cur : String) (ws : Option ℚ),
      (∀ x ∈ items, x.2.1 ≤ x.2.2) →
      items.Pairwise (fun a b => a.2.1 ≤ b.2.1) →
      (∀ s₀, ws = some s₀ → ∀ x ∈ items, s₀ ≤ x.2.1) →
      (cur ≠ "" → ws ≠ none) →
      ∀ t ∈ tokenize_go items cur ws,
        t.start ≤ t.stop ∧
        ∀ b : ℚ, (∀ x ∈ items, b ≤ x.2.1) → (∀ s₀, ws = some s₀ → b ≤ s₀) → b ≤ t.start := by
  intro items
  induction items with
  | nil => intro cur ws _ _ _ _ t ht; simp [tokenize_go] at ht
  | cons x rest ih =>
    obtain ⟨c, s, e⟩ := x
    intro cur ws hwf hpw hws hcw t ht
    have hse : s ≤ e := hwf (c, s, e) (List.mem_cons_self _ _)
    have hsrest : ∀ y ∈ rest, s ≤ y.2.1 := fun y hy => (List.pairwise_cons.mp hpw).1 y hy
    have hwfrest : ∀ y ∈ rest, y.2.1 ≤ y.2.2 :=
      fun y hy => hwf y (List.mem_cons_of_mem _ hy)
    have hpwrest := (List.pairwise_cons.mp hpw).2
    have hws_s : ∀ s₀, ws = some s₀ → s₀ ≤ s :=
      fun s₀ h₀ => hws s₀ h₀ (c, s, e) (List.mem_cons_self _ _)
    -- facts about the flushed accumulator token
    have hflush_tok : ∀ st : ℚ, (∀ s₀, ws = some s₀ → st = s₀) → (cur ≠ "" → st = ws.getD st) →
        cur ≠ "" →
        (Seg.mk cur st s).start ≤ (Seg.mk cur st s).stop ∧
        ∀ b : ℚ, (∀ x ∈ (c, s, e) :: rest, b ≤ x.2.1) → (∀ s₀, ws = some s₀ → b ≤ s₀) →
          b ≤ (Seg.mk cur st s).start := by
      intro st hst _ hcur
      obtain ⟨s₀, hs₀⟩ := Option.ne_none_iff_exists'.mp (hcw hcur)
      have hst₀ : st = s₀ := hst s₀ hs₀
      constructor
      · show st ≤ s
        rw [hst₀]
        exact hws_s s₀ hs₀
      · intro b _ hb2
        show b ≤ st
        rw [hst₀]
        exact hb2 s₀ hs₀
    have hrec_tail : ∀ t', t' ∈ tokenize_go rest "" none →
        t'.start ≤ t'.stop ∧
        ∀ b : ℚ, (∀ x ∈ (c, s, e) :: rest, b ≤ x.2.1) → (∀ s₀, ws = some s₀ → b ≤ s₀) →
          b ≤ t'.start := by
      intro t' ht'
      have := ih "" none hwfrest hpwrest (by simp) (by simp) t' ht'
      exact ⟨this.1, fun b hb1 _ =>
        this.2 b (fun y hy => hb1 y (List.mem_cons_of_mem _ hy)) (by simp)⟩
    rw [tokenize_go] at ht
    by_cases hpunct : punctuation_chars.contains c
    · rw [if_pos hpunct] at ht
      by_cases hcur : cur = ""
      · rw [if_neg (not_not_intro hcur), List.nil_append] at ht
        rcases List.mem_cons.mp ht with rfl | hrec
        · exact ⟨hse, fun b hb1 _ => hb1 (c, s, e) (List.mem_cons_self _ _)⟩
        · exact hrec_tail t hrec
      · rw [if_pos hcur] at ht
        rcases List.mem_append.mp ht with hemit | hrest'
        · simp only [List.mem_singleton] at hemit
          subst hemit
          refine hflush_tok _ ?_ ?_ hcur
          · intro s₀ h₀; rw [h₀]; rfl
          · intro _
            obtain ⟨s₀, hs₀⟩ := Option.ne_none_iff_exists'.mp (hcw hcur)
            rw [hs₀]
            rfl
        · rcases List.mem_cons.mp hrest' with rfl | hrec
          · exact ⟨hse, fun b hb1 _ => hb1 (c, s, e) (List.mem_cons_self _ _)⟩
          · exact hrec_tail t hrec
    · rw [if_neg hpunct] at ht
      by_cases hcjk : is_cjk c
      · rw [if_pos hcjk] at ht
        by_cases hcur : cur = ""
        · rw [if_neg (not_not_intro hcur), List.nil_append] at ht
          rcases List.mem_cons.mp ht with rfl | hrec
          · exact ⟨hse, fun b hb1 _ => hb1 (c, s, e) (List.mem_cons_self _ _)⟩
          · exact hrec_tail t hrec
        · rw [if_pos hcur] at ht
          rcases List.mem_append.mp ht with hemit | hrest'
          · simp only [List.mem_singleton] at hemit
            subst hemit
            obtain ⟨s₀, hs₀⟩ := Option.ne_none_iff_exists'.mp (hcw hcur)
            have hgd : (some (ws.getD s)).getD 0 = s₀ := by rw [hs₀]; rfl
            rw [hgd]
            exact ⟨hws_s s₀ hs₀, fun b _ hb2 => hb2 s₀ hs₀⟩
          · rcases List.mem_cons.mp hrest' with rfl | hrec
            · exact ⟨hse, fun b hb1 _ => hb1 (c, s, e) (List.mem_cons_self _ _)⟩
            · exact hrec_tail t hrec
      · rw [if_neg hcjk] at ht
        by_cases hwsp : c.isWhitespace
        · rw [if_pos hwsp] at ht
          by_cases hcur : cur = ""
          · rw [if_neg (not_not_intro hcur), List.nil_append] at ht
            exact hrec_tail t ht
          · rw [if_pos hcur] at ht
            rcases List.mem_append.mp ht with hemit | hrec
            · simp only [List.mem_singleton] at hemit
              subst hemit
              obtain ⟨s₀, hs₀⟩ := Option.ne_none_iff_exists'.mp (hcw hcur)
              have hgd : (some (ws.getD s)).getD 0 = s₀ := by rw [hs₀]; rfl
              rw [hgd]
              exact ⟨hws_s s₀ hs₀, fun b _ hb2 => hb2 s₀ hs₀⟩
            · exact hrec_tail t hrec
        · rw [if_neg hwsp] at ht
          by_cases hlast : rest = []
          · rw [if_pos hlast] at ht
            simp only [List.mem_singleton] at ht
            subst ht
            constructor
            · show (some (ws.getD s)).getD 0 ≤ e
              cases hws0 : ws with
              | none => simpa using hse
              | some s₀ =>
                have := hws_s s₀ hws0
                simp only [hws0, Option.getD_some]
                linarith
            · intro b hb1 hb2
              show b ≤ (some (ws.getD s)).getD 0
              cases hws0 : ws with
              | none => simpa using hb1 (c, s, e) (List.mem_cons_self _ _)
              | some s₀ => simpa [hws0] using hb2 s₀ hws0
          · rw [if_neg hlast] at ht
            have hws' : ∀ s₀, some (ws.getD s) = some s₀ → ∀ y ∈ rest, s₀ ≤ y.2.1 := by
              intro s₀ h₀ y hy
              rw [Option.some_inj] at h₀
              subst h₀
              cases hws0 : ws with
              | none => simpa using hsrest y hy
              | some s₁ =>
                simp only [hws0, Option.getD_some]
                exact hws s₁ hws0 y (List.mem_cons_of_mem _ hy)
            have := ih (cur.push c) (some (ws.getD s)) hwfrest hpwrest hws' (by simp) t ht
            refine ⟨this.1, ?_⟩
            intro b hb1 hb2
            refine this.2 b (fun y hy => hb1 y (List.mem_cons_of_mem _ hy)) ?_
            intro s₀ h₀
            rw [Option.some_inj] at h₀
            subst h₀
            cases hws0 : ws with
            | none => simpa using hb1 (c, s, e) (List.mem_cons_self _ _)
            | some s₁ => simpa [hws0] using hb2 s₁ hws0

/-- Tokenizer loop: tokens come out in non-decreasing start order. -/
lemma tok_go_pairwise :
    ∀ (items : List TChar) (cur : String) (ws : Option ℚ),
      (∀ x ∈ items, x.2.1 ≤ x.2.2) →
      items.Pairwise (fun a b => a.2.1 ≤ b.2.1) →
      (∀ s₀, ws = some s₀ → ∀ x ∈ items, s₀ ≤ x.2.1) →
      (cur ≠ "" → ws ≠ none) →
      (tokenize_go items cur ws).Pairwise (fun a b => a.start ≤ b.start) := by
  intro items
  induction items with
  | nil => intro cur ws _ _ _ _; simp [tokenize_go]
  | cons x rest ih =>
    obtain ⟨c, s, e⟩ := x
    intro cur ws hwf hpw hws hcw
    have hsrest : ∀ y ∈ rest, s ≤ y.2.1 := fun y hy => (List.pairwise_cons.mp hpw).1 y hy
    have hwfrest : ∀ y ∈ rest, y.2.1 ≤ y.2.2 :=
      fun y hy => hwf y (List.mem_cons_of_mem _ hy)
    have hpwrest := (List.pairwise_cons.mp hpw).2
    have hws_s : ∀ s₀, ws = some s₀ → s₀ ≤ s :=
      fun s₀ h₀ => hws s₀ h₀ (c, s, e) (List.mem_cons_self _ _)
    have hT : ∀ t ∈ tokenize_go rest "" none, s ≤ t.start := by
      intro t ht
      exact (tok_go_mem rest "" none hwfrest hpwrest (by simp) (by simp) t ht).2 s hsrest
        (by simp)
    have hTpw := ih "" none hwfrest hpwrest (by simp) (by simp)
    rw [tokenize_go]
    by_cases hpunct : punctuation_chars.contains c
    · rw [if_pos hpunct]
      by_cases hcur : cur = ""
      · rw [if_neg (not_not_intro hcur), List.nil_append, List.pairwise_cons]
        exact ⟨fun t ht => hT t ht, hTpw⟩
      · rw [if_pos hcur]
        obtain ⟨s₀, hs₀⟩ := Option.ne_none_iff_exists'.mp (hcw hcur)
        refine List.pairwise_append.mpr ⟨by simp, ?_, ?_⟩
        · rw [List.pairwise_cons]
          exact ⟨fun t ht => hT t ht, hTpw⟩
        · intro a ha b hb
          simp only [List.mem_singleton] at ha
          subst ha
          have hstart : (Seg.mk cur (ws.getD 0) s).start = s₀ := by
            show ws.getD 0 = s₀
            rw [hs₀]
            rfl
          rw [hstart]
          rcases List.mem_cons.mp hb with rfl | hbT
          · exact hws_s s₀ hs₀
          · exact le_trans (hws_s s₀ hs₀) (hT b hbT)
    · rw [if_neg hpunct]
      by_cases hcjk : is_cjk c
      · rw [if_pos hcjk]
        by_cases hcur : cur = ""
        · rw [if_neg (not_not_intro hcur), List.nil_append, List.pairwise_cons]
          exact ⟨fun t ht => hT t ht, hTpw⟩
        · rw [if_pos hcur]
          obtain ⟨s₀, hs₀⟩ := Option.ne_none_iff_exists'.mp (hcw hcur)
          refine List.pairwise_append.mpr ⟨by simp, ?_, ?_⟩
          · rw [List.pairwise_cons]
            exact ⟨fun t ht => hT t ht, hTpw⟩
          · intro a ha b hb
            simp only [List.mem_singleton] at ha
            subst ha
            have hstart : (Seg.mk cur ((some (ws.getD s)).getD 0) s).start = s₀ := by
              show (some (ws.getD s)).getD 0 = s₀
              rw [hs₀]
              rfl
            rw [hstart]
            rcases List.mem_cons.mp hb with rfl | hbT
            · exact hws_s s₀ hs₀
            · exact le_trans (hws_s s₀ hs₀) (hT b hbT)
      · rw [if_neg hcjk]
        by_cases hwsp : c.isWhitespace
        · rw [if_pos hwsp]
          by_cases hcur : cur = ""
          · rw [if_neg (not_not_intro hcur), List.nil_append]
            exact hTpw
          · rw [if_pos hcur]
            obtain ⟨s₀, hs₀⟩ := Option.ne_none_iff_exists'.mp (hcw hcur)
            refine List.pairwise_append.mpr ⟨by simp, hTpw, ?_⟩
            intro a ha b hb
            simp only [List.mem_singleton] at ha
            subst ha
            have hstart : (Seg.mk cur ((some (ws.getD s)).getD 0) s).start = s₀ := by
              show (some (ws.getD s)).getD 0 = s₀
              rw [hs₀]
              rfl
            rw [hstart]
            exact le_trans (hws_s s₀ hs₀) (hT b hb)
        · rw [if_neg hwsp]
          by_cases hlast : rest = []
          · rw [if_pos hlast]
            simp
          · rw [if_neg hlast]
            refine ih (cur.push c) (some (ws.getD s)) hwfrest hpwrest ?_ (by simp)
            intro s₀ h₀ y hy
            rw [Option.some_inj] at h₀
            subst h₀
            cases hws0 : ws with
            | none => simpa using hsrest y hy
            | some s₁ =>
              simp only [hws0, Option.getD_some]
              exact hws s₁ hws0 y (List.mem_cons_of_mem _ hy)

/-- Punctuation merging preserves `start ≤ stop` and the start ordering:
the merged word's new `end` (the punctuation's end) still bounds its start
because the punctuation token starts no earlier than the word it joins. -/
lemma merge_go_invariants (pset : List Char) :
    ∀ (ws acc : List Seg),
      (∀ a ∈ acc, a.start ≤ a.stop) →
      acc.Pairwise (fun a b => b.start ≤ a.start) →
      (∀ a ∈ acc, ∀ x ∈ ws, a.start ≤ x.start) →
      (∀ x ∈ ws, x.start ≤ x.stop) →
      ws.Pairwise (fun a b => a.start ≤ b.start) →
      (∀ t ∈ merge_punct_go pset acc ws, t.start ≤ t.stop) ∧
        (merge_punct_go pset acc ws).Pairwise (fun a b => a.start ≤ b.start) := by
  intro ws
  induction ws with
  | nil =>
    intro acc hacc haccpw _ _ _
    rw [merge_punct_go]
    constructor
    · intro t ht
      exact hacc t (List.mem_reverse.mp ht)
    · exact List.pairwise_reverse.mpr haccpw
  | cons w rest ih =>
    intro acc hacc haccpw hcross hwswf hwspw
    have hwwf : w.start ≤ w.stop := hwswf w (List.mem_cons_self _ _)
    have hwrest : ∀ x ∈ rest, w.start ≤ x.start :=
      fun x hx => (List.pairwise_cons.mp hwspw).1 x hx
    have hrestwf : ∀ x ∈ rest, x.start ≤ x.stop :=
      fun x hx => hwswf x (List.mem_cons_of_mem _ hx)
    have hrestpw := (List.pairwise_cons.mp hwspw).2
    cases acc with
    | nil =>
      rw [merge_punct_go]
      refine ih [w] ?_ ?_ ?_ hrestwf hrestpw
      · intro a ha
        rw [List.mem_singleton] at ha
        subst ha
        exact hwwf
      · simp
      · intro a ha x hx
        rw [List.mem_singleton] at ha
        subst ha
        exact hwrest x hx
    | cons prev acc' =>
      rw [merge_punct_go]
      have hprev_w : prev.start ≤ w.start :=
        hcross prev (List.mem_cons_self _ _) w (List.mem_cons_self _ _)
      have haccpw' := List.pairwise_cons.mp haccpw
      by_cases hp : is_punct_word pset w.text
      · rw [if_pos hp]
        refine ih ({ prev with text := prev.text ++ w.text, stop := w.stop } :: acc')
          ?_ ?_ ?_ hrestwf hrestpw
        · intro a ha
          rcases List.mem_cons.mp ha with rfl | ha'
          · exact le_trans hprev_w hwwf
          · exact hacc a (List.mem_cons_of_mem _ ha')
        · rw [List.pairwise_cons]
          exact ⟨fun b hb => haccpw'.1 b hb, haccpw'.2⟩
        · intro a ha x hx
          rcases List.mem_cons.mp ha with rfl | ha'
          · exact le_trans hprev_w (hwrest x hx)
          · exact hcross a (List.mem_cons_of_mem _ ha') x (List.mem_cons_of_mem _ hx)
      · rw [if_neg hp]
        refine ih (w :: prev :: acc') ?_ ?_ ?_ hrestwf hrestpw
        · intro a ha
          rcases List.mem_cons.mp ha with rfl | ha'
          · exact hwwf
          · exact hacc a ha'
        · rw [List.pairwise_cons]
          refine ⟨?_, haccpw⟩
          intro b hb
          exact hcross b hb w (List.mem_cons_self _ _)
        · intro a ha x hx
          rcases List.mem_cons.mp ha with rfl | ha'
          · exact hwrest x hx
          · exact hcross a ha' x (List.mem_cons_of_mem _ hx)

lemma getLastD_append_singleton : ∀ (l : List Seg) (a d : Seg), (l ++ [a]).getLastD d = a := by
  intro l
  induction l with
  | nil => intro a d; rfl
  | cons x xs ih =>
    intro a d
    rw [List.cons_append, List.getLastD_cons, ih]

/-- Word-level grouping loop: every emitted segment has `start ≤ stop`,
non-empty text, and respects lower bounds. -/
lemma wl_go_mem (cfg : BuilderConfig) (wpl : ℕ) :
    ∀ (toks group : List Seg),
      (∀ x ∈ toks, x.start ≤ x.stop) →
      toks.Pairwise (fun a b => a.start ≤ b.start) →
      (∀ a ∈ group, a.start ≤ a.stop) →
      (∀ a ∈ group, ∀ x ∈ toks, a.start ≤ x.start) →
      ∀ seg ∈ build_segments_word_level_go cfg wpl group toks,
        seg.start ≤ seg.stop ∧ seg.text ≠ "" ∧
        ∀ b : ℚ, (∀ x ∈ toks, b ≤ x.start) → (∀ a ∈ group, b ≤ a.start) → b ≤ seg.start := by
  intro toks
  induction toks with
  | nil => intro group _ _ _ _ seg hseg; simp [build_segments_word_level_go] at hseg
  | cons w rest ih =>
    intro group hwf hpw hgwf hgcross seg hseg
    have hwwf : w.start ≤ w.stop := hwf w (List.mem_cons_self _ _)
    have hwrest : ∀ x ∈ rest, w.start ≤ x.start :=
      fun x hx => (List.pairwise_cons.mp hpw).1 x hx
    have hrestwf : ∀ x ∈ rest, x.start ≤ x.stop :=
      fun x hx => hwf x (List.mem_cons_of_mem _ hx)
    have hrestpw := (List.pairwise_cons.mp hpw).2
    have hghead : ((group ++ [w]).headD default).start ≤ w.start := by
      cases group with
      | nil => simp
      | cons p g' =>
        simpa using hgcross p (List.mem_cons_self _ _) w (List.mem_cons_self _ _)
    rw [build_segments_word_level_go] at hseg
    split_ifs at hseg with hcond hclean
    · rcases List.mem_append.mp hseg with hemit | hrec
      · simp only [List.mem_singleton] at hemit
        subst hemit
        refine ⟨?_, hclean, ?_⟩
        · show ((group ++ [w]).headD default).start ≤ ((group ++ [w]).getLastD default).stop
          rw [getLastD_append_singleton]
          exact le_trans hghead hwwf
        · intro b hb1 hb2
          show b ≤ ((group ++ [w]).headD default).start
          cases group with
          | nil => simpa using hb1 w (List.mem_cons_self _ _)
          | cons p g' => simpa using hb2 p (List.mem_cons_self _ _)
      · have := ih [] hrestwf hrestpw (by simp) (by simp) seg hrec
        refine ⟨this.1, this.2.1, ?_⟩
        intro b hb1 _
        exact this.2.2 b (fun x hx => hb1 x (List.mem_cons_of_mem _ hx)) (by simp)
    · rw [List.nil_append] at hseg
      have := ih [] hrestwf hrestpw (by simp) (by simp) seg hseg
      refine ⟨this.1, this.2.1, ?_⟩
      intro b hb1 _
      exact this.2.2 b (fun x hx => hb1 x (List.mem_cons_of_mem _ hx)) (by simp)
    · have := ih (group ++ [w]) hrestwf hrestpw ?_ ?_ seg hseg
      · refine ⟨this.1, this.2.1, ?_⟩
        intro b hb1 hb2
        refine this.2.2 b (fun x hx => hb1 x (List.mem_cons_of_mem _ hx)) ?_
        intro a ha
        rcases List.mem_append.mp ha with ha' | ha'
        · exact hb2 a ha'
        · rw [List.mem_singleton] at ha'
          subst ha'
          exact hb1 a (List.mem_cons_self _ _)
      · intro a ha
        rcases List.mem_append.mp ha with ha' | ha'
        · exact hgwf a ha'
        · rw [List.mem_singleton] at ha'
          subst ha'
          exact hwwf
      · intro a ha x hx
        rcases List.mem_append.mp ha with ha' | ha'
        · exact hgcross a ha' x (List.mem_cons_of_mem _ hx)
        · rw [List.mem_singleton] at ha'
          subst ha'
          exact hwrest x hx

/-- Word-level grouping loop: segments come out in non-decreasing start
order. -/
lemma wl_go_pairwise (cfg : BuilderConfig) (wpl : ℕ) :
    ∀ (toks group : List Seg),
      (∀ x ∈ toks, x.start ≤ x.stop) →
      toks.Pairwise (fun a b => a.start ≤ b.start) →
      (∀ a ∈ group, a.start ≤ a.stop) →
      (∀ a ∈ group, ∀ x ∈ toks, a.start ≤ x.start) →
      (build_segments_word_level_go cfg wpl group toks).Pairwise
        (fun a b => a.start ≤ b.start) := by
  intro toks
  induction toks with
  | nil => intro group _ _ _ _; simp [build_segments_word_level_go]
  | cons w rest ih =>
    intro group hwf hpw hgwf hgcross
    have hwwf : w.start ≤ w.stop := hwf w (List.mem_cons_self _ _)
    have hwrest : ∀ x ∈ rest, w.start ≤ x.start :=
      fun x hx => (List.pairwise_cons.mp hpw).1 x hx
    have hrestwf : ∀ x ∈ rest, x.start ≤ x.stop :=
      fun x hx => hwf x (List.mem_cons_of_mem _ hx)
    have hrestpw := (List.pairwise_cons.mp hpw).2
    have hghead : ((group ++ [w]).headD default).start ≤ w.start := by
      cases group with
      | nil => simp
      | cons p g' =>
        simpa using hgcross p (List.mem_cons_self _ _) w (List.mem_cons_self _ _)
    rw [build_segments_word_level_go]
    split_ifs with hcond hclean
    · refine List.pairwise_append.mpr ⟨by simp, ih [] hrestwf hrestpw (by simp) (by simp), ?_⟩
      intro a ha b hb
      simp only [List.mem_singleton] at ha
      subst ha
      have hbnd := (wl_go_mem cfg wpl rest [] hrestwf hrestpw (by simp) (by simp) b hb).2.2
      exact hbnd ((group ++ [w]).headD default).start
        (fun x hx => le_trans hghead (hwrest x hx)) (by simp)
    · rw [List.nil_append]
      exact ih [] hrestwf hrestpw (by simp) (by simp)
    · refine ih (group ++ [w]) hrestwf hrestpw ?_ ?_
      · intro a ha
        rcases List.mem_append.mp ha with ha' | ha'
        · exact hgwf a ha'
        · rw [List.mem_singleton] at ha'
          subst ha'
          exact hwwf
      · intro a ha x hx
        rcases List.mem_append.mp ha with ha' | ha'
        · exact hgcross a ha' x (List.mem_cons_of_mem _ hx)
        · rw [List.mem_singleton] at ha'
          subst ha'
          exact hwrest x hx

/-- Standard-mode loop: segments come out in non-decreasing start order. -/
lemma std_go_pairwise (cfg : BuilderConfig) (ill : Bool) :
    ∀ (items : List TChar) (cur : String) (cs : Option ℚ),
      (∀ x ∈ items, x.2.1 ≤ x.2.2) →
      items.Pairwise (fun a b => a.2.1 ≤ b.2.1) →
      (∀ s₀, cs = some s₀ → ∀ x ∈ items, s₀ ≤ x.2.1) →
      (build_segments_standard_go cfg ill items cur cs).Pairwise
        (fun a b => a.start ≤ b.start) := by
  intro items
  induction items with
  | nil => intro cur cs _ _ _; simp [build_segments_standard_go]
  | cons x rest ih =>
    obtain ⟨c, s, e⟩ := x
    intro cur cs hwf hpw hcs
    have hsrest : ∀ y ∈ rest, s ≤ y.2.1 := fun y hy => (List.pairwise_cons.mp hpw).1 y hy
    have hwfrest : ∀ y ∈ rest, y.2.1 ≤ y.2.2 :=
      fun y hy => hwf y (List.mem_cons_of_mem _ hy)
    have hpwrest := (List.pairwise_cons.mp hpw).2
    rw [build_segments_standard_go]
    split_ifs with hcond hclean
    · refine List.pairwise_append.mpr ⟨by simp, ih "" none hwfrest hpwrest (by simp), ?_⟩
      intro a ha b hb
      simp only [List.mem_singleton] at ha
      subst ha
      have hbnd := (std_go_mem cfg ill rest "" none hwfrest hpwrest (by simp) b hb).2.2
      refine hbnd (cs.getD s) (fun y hy => ?_) (by simp)
      cases hcs0 : cs with
      | none => simpa using hsrest y hy
      | some s₁ =>
        simp only [hcs0, Option.getD_some]
        exact hcs s₁ hcs0 y (List.mem_cons_of_mem _ hy)
    · rw [List.nil_append]
      exact ih "" none hwfrest hpwrest (by simp)
    · refine ih (cur.push c) (some (cs.getD s)) hwfrest hpwrest ?_
      intro s₀ h₀ y hy
      rw [Option.some_inj] at h₀
      subst h₀
      cases hcs0 : cs with
      | none => simpa using hsrest y hy
      | some s₁ =>
        simp only [hcs0, Option.getD_some]
        exact hcs s₁ hcs0 y (List.mem_cons_of_mem _ hy)

/-- C4 (confirmed): when the parallel arrays satisfy the TimedCharacter
invariant (equal lengths, `start[i] ≤ end[i]`, non-decreasing starts),
every segment produced by `build_segments` — in standard AND word-level
mode, for every configuration — has `start ≤ end` and non-empty text, and
the segments appear in non-decreasing start order. -/
theorem c4_build_segments_invariants (cfg : BuilderConfig) (chars : List Char)
    (starts stops : List ℚ) (word_level : Bool) (words_per_line : ℕ)
    (ignore_line_length : Bool)
    (hlen : chars.length = starts.length)
    (hse : List.Forall₂ (· ≤ ·) starts stops)
    (hmono : starts.Pairwise (· ≤ ·)) :
    (∀ seg ∈ build_segments cfg chars starts stops word_level words_per_line
        ignore_line_length, seg.start ≤ seg.stop ∧ seg.text ≠ "") ∧
    (build_segments cfg chars starts stops word_level words_per_line
        ignore_line_length).Pairwise (fun a b => a.start ≤ b.start) := by
  have hwf := zip3_wf chars starts stops hse
  have hpw := zip3_pairwise chars starts stops hmono
  rw [build_segments]
  by_cases hchars : chars = []
  · rw [if_pos hchars]
    exact ⟨by simp, by simp⟩
  · rw [if_neg hchars]
    cases word_level with
    | false =>
      rw [if_neg (by simp)]
      constructor
      · intro seg hseg
        have := std_go_mem cfg ignore_line_length (zip3 chars starts stops) "" none
          hwf hpw (by simp) seg hseg
        exact ⟨this.1, this.2.1⟩
      · exact std_go_pairwise cfg ignore_line_length (zip3 chars starts stops) "" none
          hwf hpw (by simp)
    | true =>
      rw [if_pos rfl]
      have htokwf : ∀ t ∈ tokenize_by_cjk chars starts stops, t.start ≤ t.stop := by
        intro t ht
        rw [tokenize_by_cjk, if_neg hchars] at ht
        exact (tok_go_mem (zip3 chars starts stops) "" none hwf hpw (by simp) (by simp)
          t ht).1
      have htokpw : (tokenize_by_cjk chars starts stops).Pairwise
          (fun a b => a.start ≤ b.start) := by
        rw [tokenize_by_cjk, if_neg hchars]
        exact tok_go_pairwise (zip3 chars starts stops) "" none hwf hpw (by simp) (by simp)
      have hm : (∀ t ∈ merge_punctuation_with_previous cfg
            (tokenize_by_cjk chars starts stops), t.start ≤ t.stop) ∧
          (merge_punctuation_with_previous cfg (tokenize_by_cjk chars starts stops)).Pairwise
            (fun a b => a.start ≤ b.start) := by
        rw [merge_punctuation_with_previous]
        by_cases htnil : tokenize_by_cjk chars starts stops = []
        · rw [if_pos htnil, htnil]
          exact ⟨by simp, by simp⟩
        · rw [if_neg htnil]
          exact merge_go_invariants _ (tokenize_by_cjk chars starts stops) []
            (by simp) (by simp) (by simp) htokwf htokpw
      constructor
      · intro seg hseg
        have := wl_go_mem cfg words_per_line
          (merge_punctuation_with_previous cfg (tokenize_by_cjk chars starts stops)) []
          hm.1 hm.2 (by simp) (by simp) seg hseg
        exact ⟨this.1, this.2.1⟩
      · exact wl_go_pairwise cfg words_per_line
          (merge_punctuation_with_previous cfg (tokenize_by_cjk chars starts stops)) []
          hm.1 hm.2 (by simp) (by simp)

/-- C4 witness: the theorem applied, in word-level mode, to two ordinary
characters with well-formed timestamps. -/
theorem c4_build_segments_invariants_witness :
    (∀ seg ∈ build_segments default_config ['a', 'b'] [0, 1] [1, 2] true 1 false,
      seg.start ≤ seg.stop ∧ seg.text ≠ "") ∧
    (build_segments default_config ['a', 'b'] [0, 1] [1, 2] true 1 false).Pairwise
      (fun a b => a.start ≤ b.start) :=
  c4_build_segments_invariants default_config ['a', 'b'] [0, 1] [1, 2] true 1 false
    (by decide)
    (by norm_num [List.forall₂_cons])
    (by norm_num [List.pairwise_cons])

/-! ### Claim C9 about the heap behaviour of `translate_segments` -/

lemma set_append_last : ∀ (σ : Store) (d d' : PyDict), (σ ++ [d]).set σ.length d' = σ ++ [d'] := by
  intro σ
  induction σ with
  | nil => intro d d'; rfl
  | cons x xs ih =>
    intro d d'
    show x :: ((xs ++ [d]).set xs.length d') = x :: (xs ++ [d'])
    rw [ih]

lemma getD_append_left (σ ds : Store) (a : ℕ) (h : a < σ.length) :
    (σ ++ ds).getD a [] = σ.getD a [] := by
  rw [List.getD_eq_getElem?_getD, List.getD_eq_getElem?_getD, List.getElem?_append,
    if_pos h]

lemma getD_append_right_len (σ ds : Store) (j : ℕ) :
    (σ ++ ds).getD (σ.length + j) [] = ds.getD j [] := by
  rw [List.getD_eq_getElem?_getD, List.getD_eq_getElem?_getD,
    List.getElem?_append_right (by omega)]
  have h : σ.length + j - σ.length = j := by omega
  rw [h]

lemma forall₂_weaken {α β : Type} {R S : α → β → Prop} :
    ∀ {l₁ : List α} {l₂ : List β}, List.Forall₂ R l₁ l₂ →
      (∀ a ∈ l₁, ∀ b, R a b → S a b) → List.Forall₂ S l₁ l₂ := by
  intro l₁ l₂ h
  induction h with
  | nil => intro _; exact List.Forall₂.nil
  | cons hab _ ih =>
    intro hw
    exact List.Forall₂.cons (hw _ (List.mem_cons_self _ _) _ hab)
      (ih (fun a ha b hr => hw a (List.mem_cons_of_mem _ ha) b hr))

lemma forall₂_map_fst {R : ℕ → PyDict → Prop} :
    ∀ {l : List (ℕ × Option String)} {ds : List PyDict},
      List.Forall₂ (fun p d => R p.1 d) l ds → List.Forall₂ R (l.map Prod.fst) ds := by
  intro l ds h
  induction h with
  | nil => exact List.Forall₂.nil
  | cons hab _ ih => exact List.Forall₂.cons hab ih

/-- `copy_batch` only appends fresh dicts: the final store extends the
initial one, the returned addresses are exactly the freshly allocated ones,
and each new dict is the source dict with at most the text replaced. -/
lemma copy_batch_spec :
    ∀ (pairs : List (ℕ × Option String)) (σ : Store),
      (∀ p ∈ pairs, p.1 < σ.length) →
      ∃ ds : List PyDict,
        (copy_batch σ pairs).1 = σ ++ ds ∧
        (copy_batch σ pairs).2 = List.range' σ.length pairs.length ∧
        List.Forall₂ (fun (p : ℕ × Option String) (d : PyDict) =>
          d = store_get σ p.1 ∨
          ∃ t, t ≠ "" ∧ d = dict_set (store_get σ p.1) "text" (PyVal.s t)) pairs ds := by
  intro pairs
  induction pairs with
  | nil =>
    intro σ _
    exact ⟨[], by simp [copy_batch], by simp [copy_batch, List.range'], List.Forall₂.nil⟩
  | cons p rest ih =>
    obtain ⟨a, t⟩ := p
    intro σ hv
    have ha : a < σ.length := hv (a, t) (List.mem_cons_self _ _)
    have hvrest : ∀ q ∈ rest, q.1 < σ.length :=
      fun q hq => hv q (List.mem_cons_of_mem _ hq)
    -- the dict placed at the fresh address
    have key : ∀ (d₁ : PyDict),
        (d₁ = store_get σ a ∨
          ∃ s, s ≠ "" ∧ d₁ = dict_set (store_get σ a) "text" (PyVal.s s)) →
        ∀ (r : Store × List ℕ), r = copy_batch (σ ++ [d₁]) rest →
        ∃ ds : List PyDict,
          r.1 = σ ++ d₁ :: ds ∧
          (σ.length :: r.2) = List.range' σ.length (rest.length + 1) ∧
          List.Forall₂ (fun (p : ℕ × Option String) (d : PyDict) =>
            d = store_get σ p.1 ∨
            ∃ t', t' ≠ "" ∧ d = dict_set (store_get σ p.1) "text" (PyVal.s t'))
            ((a, t) :: rest) (d₁ :: ds) := by
      intro d₁ hd₁ r hr
      obtain ⟨ds', h1, h2, h3⟩ := ih (σ ++ [d₁])
        (fun q hq => lt_of_lt_of_le (hvrest q hq) (by simp))
      refine ⟨ds', ?_, ?_, ?_⟩
      · rw [hr, h1]
        simp
      · rw [hr, h2]
        have hlen1 : (σ ++ [d₁]).length = σ.length + 1 := by simp
        rw [hlen1, List.range']
      · refine List.Forall₂.cons ?_ ?_
        · rcases hd₁ with h | ⟨s, hs, h⟩
          · exact Or.inl h
          · exact Or.inr ⟨s, hs, h⟩
        · refine forall₂_weaken h3 ?_
          intro q hq d hrel
          have hq' : q.1 < σ.length := hvrest q hq
          have hget : store_get (σ ++ [d₁]) q.1 = store_get σ q.1 := by
            unfold store_get
            exact getD_append_left σ [d₁] q.1 hq'
          rw [hget] at hrel
          exact hrel
    cases t with
    | none =>
      obtain ⟨ds, h1, h2, h3⟩ := key (store_get σ a) (Or.inl rfl) _ rfl
      refine ⟨store_get σ a :: ds, ?_, ?_, h3⟩
      · rw [copy_batch]
        exact h1
      · rw [copy_batch]
        exact h2
    | some s =>
      by_cases hs : s ≠ ""
      · obtain ⟨ds, h1, h2, h3⟩ :=
          key (dict_set (store_get σ a) "text" (PyVal.s s)) (Or.inr ⟨s, hs, rfl⟩) _ rfl
        refine ⟨dict_set (store_get σ a) "text" (PyVal.s s) :: ds, ?_, ?_, h3⟩
        · rw [copy_batch, if_pos hs, set_append_last]
          exact h1
        · rw [copy_batch, if_pos hs, set_append_last]
          exact h2
      · obtain ⟨ds, h1, h2, h3⟩ := key (store_get σ a) (Or.inl rfl) _ rfl
        refine ⟨store_get σ a :: ds, ?_, ?_, h3⟩
        · rw [copy_batch, if_neg hs]
          exact h1
        · rw [copy_batch, if_neg hs]
          exact h2

lemma forall₂_append {α β : Type} {R : α → β → Prop} :
    ∀ {l₁ l₁' : List α} {l₂ l₂' : List β},
      List.Forall₂ R l₁ l₂ → List.Forall₂ R l₁' l₂' →
      List.Forall₂ R (l₁ ++ l₁') (l₂ ++ l₂') := by
  intro l₁ l₁' l₂ l₂' h h'
  induction h with
  | nil => exact h'
  | cons hab _ ih => exact List.Forall₂.cons hab ih

/-- The batch loop only appends fresh dicts; the returned addresses are the
consecutive fresh ones, and each is the matching source dict with at most
its text replaced. -/
lemma ts_store_go_spec (respond : List String → Option String) :
    ∀ (bs : List (List ℕ)) (σ : Store),
      (∀ b ∈ bs, ∀ a ∈ b, a < σ.length) →
      ∃ ds : List PyDict,
        (ts_store_go respond σ bs).1 = σ ++ ds ∧
        (ts_store_go respond σ bs).2 = List.range' σ.length bs.flatten.length ∧
        List.Forall₂ (fun (a : ℕ) (d : PyDict) =>
          d = store_get σ a ∨
          ∃ t, t ≠ "" ∧ d = dict_set (store_get σ a) "text" (PyVal.s t)) bs.flatten ds := by
  intro bs
  induction bs with
  | nil =>
    intro σ _
    exact ⟨[], by simp [ts_store_go], by simp [ts_store_go, List.range'], List.Forall₂.nil⟩
  | cons batch bs ih =>
    intro σ hv
    set pairs := batch.zip (translate_batch (batch.map (seg_text_at σ))
      (respond (batch.map (seg_text_at σ)))) with hpairs
    have hvp : ∀ p ∈ pairs, p.1 < σ.length := by
      intro p hp
      have hmem : p.1 ∈ batch := by
        obtain ⟨x, y, rfl⟩ : ∃ x y, p = (x, y) := ⟨p.1, p.2, rfl⟩
        exact (List.of_mem_zip hp).1
      exact hv batch (List.mem_cons_self _ _) p.1 hmem
    obtain ⟨ds₁, h11, h12, h13⟩ := copy_batch_spec pairs σ hvp
    have hplen : pairs.length = batch.length := by
      rw [hpairs, List.length_zip, translate_batch_length, List.length_map]
      exact Nat.min_self _
    have hds₁len : ds₁.length = batch.length := by
      rw [← h13.length_eq, hplen]
    obtain ⟨ds₂, h21, h22, h23⟩ := ih (σ ++ ds₁) (by
      intro b hb a ha
      exact lt_of_lt_of_le (hv b (List.mem_cons_of_mem _ hb) a ha) (by simp))
    refine ⟨ds₁ ++ ds₂, ?_, ?_, ?_⟩
    · rw [ts_store_go]
      dsimp only
      rw [← hpairs, h11, h21, List.append_assoc]
    · rw [ts_store_go]
      dsimp only
      rw [← hpairs, h11, h12, h22]
      have hσ1 : (σ ++ ds₁).length = σ.length + batch.length := by simp [hds₁len]
      rw [hσ1, hplen, List.range'_append_1]
      congr 1
      simp [Nat.add_comm]
    · rw [show (batch :: bs).flatten = batch ++ bs.flatten from rfl]
      refine forall₂_append ?_ ?_
      · have hmap : pairs.map Prod.fst = batch := by
          rw [hpairs]
          exact List.map_fst_zip _ _ (by rw [translate_batch_length, List.length_map])
        have hfst := forall₂_map_fst
          (R := fun a d => d = store_get σ a ∨
            ∃ t, t ≠ "" ∧ d = dict_set (store_get σ a) "text" (PyVal.s t)) h13
        rwa [hmap] at hfst
      · refine forall₂_weaken h23 ?_
        intro a ha d hrel
        have ha' : a < σ.length := by
          obtain ⟨b, hb, hab⟩ := List.mem_flatten.mp ha
          exact hv b (List.mem_cons_of_mem _ hb) a hab
        have hget : store_get (σ ++ ds₁) a = store_get σ a := by
          unfold store_get
          exact getD_append_left σ ds₁ a ha'
        rwa [hget] at hrel

lemma forall₂_range_assemble (σ : Store) :
    ∀ (addrs : List ℕ) (ds pre : List PyDict),
      List.Forall₂ (fun (a : ℕ) (d : PyDict) =>
        d = store_get σ a ∨
        ∃ t, t ≠ "" ∧ d = dict_set (store_get σ a) "text" (PyVal.s t)) addrs ds →
      List.Forall₂ (fun (a b : ℕ) => σ.length ≤ b ∧
        ((σ ++ pre ++ ds).getD b [] = σ.getD a [] ∨
         ∃ t, t ≠ "" ∧ (σ ++ pre ++ ds).getD b [] =
           dict_set (σ.getD a []) "text" (PyVal.s t)))
        addrs (List.range' (σ.length + pre.length) addrs.length) := by
  intro addrs ds pre h
  induction h generalizing pre with
  | nil => exact List.Forall₂.nil
  | @cons a d addrs' ds' had _ ih =>
    refine List.Forall₂.cons ?_ ?_
    · refine ⟨by omega, ?_⟩
      have hget : (σ ++ pre ++ (d :: ds')).getD (σ.length + pre.length) [] = d := by
        have hl : (σ ++ pre).length = σ.length + pre.length := by simp
        rw [← hl]
        have := getD_append_right_len (σ ++ pre) (d :: ds') 0
        simpa using this
      rw [hget]
      simpa [store_get] using had
    · have step := ih (pre ++ [d])
      have hl : (pre ++ [d]).length = pre.length + 1 := by simp
      rw [hl, ← Nat.add_assoc] at step
      have hstore : σ ++ (pre ++ [d]) ++ ds' = σ ++ pre ++ (d :: ds') := by simp
      rwa [hstore] at step

/-- C9: `translate_segments` never mutates any input segment object: every
pre-existing dict in the store is unchanged after the call, the output has
one segment per input, with the backend unavailable the input list is
returned as is, and with it available each returned entry is a FRESH object
(address at or past the old store top) equal to the corresponding input
dict either verbatim or with only its "text" entry replaced by some
non-empty translation. -/
theorem c9_translate_segments_no_mutation (available : Bool) (σ : Store)
    (seg_addrs : List ℕ) (respond : List String → Option String)
    (hvalid : ∀ a ∈ seg_addrs, a < σ.length) :
    (∀ a, a < σ.length →
      (translate_segments_store available σ seg_addrs respond).1.getD a [] = σ.getD a []) ∧
    (translate_segments_store available σ seg_addrs respond).2.length = seg_addrs.length ∧
    (available = false → translate_segments_store available σ seg_addrs respond = (σ, seg_addrs)) ∧
    (available = true →
      List.Forall₂ (fun (a b : ℕ) => σ.length ≤ b ∧
        ((translate_segments_store available σ seg_addrs respond).1.getD b [] = σ.getD a [] ∨
         ∃ t, t ≠ "" ∧
           (translate_segments_store available σ seg_addrs respond).1.getD b [] =
             dict_set (σ.getD a []) "text" (PyVal.s t)))
        seg_addrs (translate_segments_store available σ seg_addrs respond).2) := by
  cases available with
  | false =>
    have hts : translate_segments_store false σ seg_addrs respond = (σ, seg_addrs) := by
      rw [translate_segments_store, if_pos (by simp)]
    rw [hts]
    refine ⟨fun a _ => rfl, rfl, fun _ => rfl, fun hcon => absurd hcon (by simp)⟩
  | true =>
    by_cases hnil : seg_addrs = []
    · have hts : translate_segments_store true σ seg_addrs respond = (σ, seg_addrs) := by
        rw [translate_segments_store, if_neg (by simp), if_pos hnil]
      rw [hts]
      subst hnil
      exact ⟨fun a _ => rfl, rfl, fun hcon => absurd hcon (by simp), fun _ => List.Forall₂.nil⟩
    · have hflat : (chunksOf batch_size seg_addrs).flatten = seg_addrs :=
        chunksOf_flatten seg_addrs
      have hbs : ∀ b ∈ chunksOf batch_size seg_addrs, ∀ a ∈ b, a < σ.length := by
        intro b hb a hab
        apply hvalid
        have : a ∈ (chunksOf batch_size seg_addrs).flatten := List.mem_flatten.mpr ⟨b, hb, hab⟩
        rwa [hflat] at this
      obtain ⟨ds, h1, h2, h3⟩ := ts_store_go_spec respond (chunksOf batch_size seg_addrs) σ hbs
      have hts : translate_segments_store true σ seg_addrs respond =
          ts_store_go respond σ (chunksOf batch_size seg_addrs) := by
        rw [translate_segments_store, if_neg (by simp), if_neg hnil]
      rw [hflat] at h2 h3
      refine ⟨?_, ?_, fun hcon => absurd hcon (by simp), ?_⟩
      · intro a ha
        rw [hts, h1]
        exact getD_append_left σ ds a ha
      · rw [hts, h2, List.length_range']
      · intro _
        rw [hts, h1, h2]
        have := forall₂_range_assemble σ seg_addrs ds [] h3
        simpa using this

theorem c9_translate_segments_no_mutation_witness :
    (translate_segments_store true
      [[("text", PyVal.s "a"), ("start", PyVal.q 0)],
       [("text", PyVal.s "b"), ("start", PyVal.q 1)]]
      [0, 1] (fun _ => some "X###SEG_SEP###Y")).2.length = 2 :=
  (c9_translate_segments_no_mutation true
    [[("text", PyVal.s "a"), ("start", PyVal.q 0)],
     [("text", PyVal.s "b"), ("start", PyVal.q 1)]]
    [0, 1] (fun _ => some "X###SEG_SEP###Y") (by decide)).2.1

end PyMedia
